import Mathlib

/-
Verification of the session synchronization and persistence protocol of the
nanobot serverless gateway (src/src/storage.py and src/src/adapter.py).

The object store (a GCS bucket) is modelled as an association list from blob
names to blob contents; blob contents and Python strings are modelled as
lists of unicode scalar characters.  JSON documents are modelled by the
inductive type `Json`; `dumps`/`dumpsIndent2` model `json.dumps` (without the
default ensure_ascii ASCII-escaping of non-ASCII characters, and without
float literals — neither affects any parsed-back value or any claim below),
and `loads` models `json.loads`.  Failures of individual remote operations
(`blob.exists`, `download_as_text`, `upload_from_string`, `list_blobs`) are
modelled by explicit outcome flags threaded into each storage call, and
Python exception flow is modelled with `Except`.
-/

set_option maxRecDepth 8192

abbrev Chars := List Char

/-- JSON values (Python objects produced by `json.loads`). Object member
order models Python dict insertion order. -/
inductive Json where
  | null : Json
  | bool (b : Bool) : Json
  | num (n : Int) : Json
  | str (s : String) : Json
  | arr (xs : List Json) : Json
  | obj (kvs : List (String × Json)) : Json
deriving Repr

/-- Python dict lookup `d.get(k)` (first binding wins; dicts built by the
operations below never hold duplicate keys). -/
def dictGet : List (String × Json) → String → Option Json
  | [], _ => none
  | (k', v) :: rest, k => if k' = k then some v else dictGet rest k

/-- Python dict lookup with default, `d.get(k, default)`. -/
def dictGetD (kvs : List (String × Json)) (k : String) (d : Json) : Json :=
  (dictGet kvs k).getD d

/-- Python dict item assignment `d[k] = v`: updates the existing binding in
place (keeping its position) or appends a new one. -/
def dictSet : List (String × Json) → String → Json → List (String × Json)
  | [], k, v => [(k, v)]
  | (k', v') :: rest, k, v =>
    if k' = k then (k, v) :: rest else (k', v') :: dictSet rest k v

/-- Python shallow dict merge `{**old, **upd}`. -/
def dictMerge (old upd : List (String × Json)) : List (String × Json) :=
  upd.foldl (fun d kv => dictSet d kv.1 kv.2) old

/-- Python truthiness of a JSON value. -/
def pyTruthy : Json → Bool
  | .null => false
  | .bool b => b
  | .num n => if n = 0 then false else true
  | .str s => if s = "" then false else true
  | .arr [] => false
  | .arr (_ :: _) => true
  | .obj [] => false
  | .obj (_ :: _) => true

/-- Decimal digits of a natural number, most significant first, with fuel
(the fuel `n` itself always suffices). -/
def natCharsGo : Nat → Nat → Chars
  | 0, _ => []
  | fuel + 1, n =>
    if n < 10 then [Nat.digitChar n]
    else natCharsGo fuel (n / 10) ++ [Nat.digitChar (n % 10)]

/-- Decimal representation of a natural number, as `str`/`json.dumps` print it. -/
def natChars (n : Nat) : Chars :=
  if n = 0 then ['0'] else natCharsGo n n

/-- Decimal representation of a Python int. -/
def intChars (n : Int) : Chars :=
  if n < 0 then '-' :: natChars n.natAbs else natChars n.natAbs

mutual
/-- Python `repr` of a JSON value (used by `str` on lists and dicts; string
quoting inside containers is modelled without repr escaping, which no claim
exercises). -/
def pyRepr : Json → Chars
  | .null => ['N', 'o', 'n', 'e']
  | .bool true => ['T', 'r', 'u', 'e']
  | .bool false => ['F', 'a', 'l', 's', 'e']
  | .num n => intChars n
  | .str s => '\'' :: s.data ++ ['\'']
  | .arr xs => '[' :: pyReprL xs ++ [']']
  | .obj kvs => '{' :: pyReprM kvs ++ ['}']
def pyReprL : List Json → Chars
  | [] => []
  | [x] => pyRepr x
  | x :: y :: xs => pyRepr x ++ [',', ' '] ++ pyReprL (y :: xs)
def pyReprM : List (String × Json) → Chars
  | [] => []
  | [(k, v)] => '\'' :: k.data ++ ['\'', ':', ' '] ++ pyRepr v
  | (k, v) :: y :: kvs =>
    '\'' :: k.data ++ ['\'', ':', ' '] ++ pyRepr v ++ [',', ' '] ++ pyReprM (y :: kvs)
end

/-- Python `str(x)` of a JSON value. -/
def pyStr : Json → String
  | .null => "None"
  | .bool true => "True"
  | .bool false => "False"
  | .num n => String.mk (intChars n)
  | .str s => s
  | .arr xs => String.mk (pyRepr (.arr xs))
  | .obj kvs => String.mk (pyRepr (.obj kvs))

/-- Characters removed by Python `str.strip()` (ASCII whitespace). -/
def pyWs (c : Char) : Bool :=
  c = ' ' || c = '\t' || c = '\n' || c = '\r' || c = '\x0b' || c = '\x0c'

/-- Python `s.strip()`. -/
def pyStrip (s : Chars) : Chars :=
  ((s.dropWhile pyWs).reverse.dropWhile pyWs).reverse

/-- Python `s.split("\n")`. -/
def splitNl : Chars → List Chars
  | [] => [[]]
  | c :: r =>
    if c = '\n' then [] :: splitNl r
    else
      match splitNl r with
      | [] => [[c]]
      | l :: ls => (c :: l) :: ls

/-- JSON string escaping as performed by `json.dumps` for one character. -/
def escChar (c : Char) : Chars :=
  if c = '"' then ['\\', '"']
  else if c = '\\' then ['\\', '\\']
  else if c = '\n' then ['\\', 'n']
  else if c = '\r' then ['\\', 'r']
  else if c = '\t' then ['\\', 't']
  else if c = '\x08' then ['\\', 'b']
  else if c = '\x0c' then ['\\', 'f']
  else if c.toNat < 32 then
    ['\\', 'u', '0', '0', Nat.digitChar (c.toNat / 16), Nat.digitChar (c.toNat % 16)]
  else [c]

/-- JSON string escaping for a character sequence. -/
def escChars : Chars → Chars
  | [] => []
  | c :: cs => escChar c ++ escChars cs

/-- A JSON string literal as emitted by `json.dumps`. -/
def escStr (s : String) : Chars :=
  '"' :: escChars s.data ++ ['"']

/-- Newline-plus-indentation emitted before an item at nesting level `lvl`
when dumping with `indent = k` (nothing in compact mode). -/
def nlInd (ind : Option Nat) (lvl : Nat) : Chars :=
  match ind with
  | none => []
  | some k => '\n' :: List.replicate (k * lvl) ' '

/-- Item separator of `json.dumps`: `", "` in compact mode, `","` plus
newline and indentation with `indent = k`. -/
def itemSep (ind : Option Nat) (lvl : Nat) : Chars :=
  match ind with
  | none => [',', ' ']
  | some k => ',' :: '\n' :: List.replicate (k * lvl) ' '

mutual
/-- `json.dumps(v)` (compact, `ind = none`) and `json.dumps(v, indent=k)`
(`ind = some k`), at nesting level `lvl`. -/
def emitV (ind : Option Nat) (lvl : Nat) : Json → Chars
  | .null => "null".data
  | .bool true => "true".data
  | .bool false => "false".data
  | .num n => intChars n
  | .str s => escStr s
  | .arr [] => ['[', ']']
  | .arr (x :: xs) =>
    '[' :: (nlInd ind (lvl + 1) ++ emitV ind (lvl + 1) x ++ emitL ind (lvl + 1) xs
      ++ nlInd ind lvl ++ [']'])
  | .obj [] => ['{', '}']
  | .obj (kv :: kvs) =>
    '{' :: (nlInd ind (lvl + 1) ++ emitKV ind (lvl + 1) kv ++ emitM ind (lvl + 1) kvs
      ++ nlInd ind lvl ++ ['}'])
def emitKV (ind : Option Nat) (lvl : Nat) : String × Json → Chars
  | (k, v) => escStr k ++ [':', ' '] ++ emitV ind lvl v
def emitL (ind : Option Nat) (lvl : Nat) : List Json → Chars
  | [] => []
  | x :: xs => itemSep ind lvl ++ emitV ind lvl x ++ emitL ind lvl xs
def emitM (ind : Option Nat) (lvl : Nat) : List (String × Json) → Chars
  | [] => []
  | kv :: kvs => itemSep ind lvl ++ emitKV ind lvl kv ++ emitM ind lvl kvs
end

/-- `json.dumps(v)` with default arguments. -/
def dumps (v : Json) : Chars := emitV none 0 v

/-- `json.dumps(v, indent=2)` as used for session documents. -/
def dumpsIndent2 (v : Json) : Chars := emitV (some 2) 0 v

/-- JSON whitespace skipped by the parser. -/
def jws (c : Char) : Bool :=
  c = ' ' || c = '\t' || c = '\n' || c = '\r'

/-- Skip leading JSON whitespace. -/
def skipWs (s : Chars) : Chars := s.dropWhile jws

/-- Value of one hex digit. -/
def hexVal (c : Char) : Option Nat :=
  if '0' ≤ c ∧ c ≤ '9' then some (c.toNat - 48)
  else if 'a' ≤ c ∧ c ≤ 'f' then some (c.toNat - 87)
  else if 'A' ≤ c ∧ c ≤ 'F' then some (c.toNat - 55)
  else none

/-- Parse the body of a JSON string literal (after the opening quote),
returning the decoded characters and the rest of the input.  Raw control
characters are rejected, as by `json.loads` in strict mode; `\uXXXX`
escapes outside the surrogate range decode to the corresponding scalar. -/
def parseStrBody : Chars → Option (Chars × Chars)
  | [] => none
  | c :: r =>
    if c = '"' then some ([], r)
    else if c = '\\' then
      match r with
      | [] => none
      | e :: r₂ =>
        if e = '"' then (parseStrBody r₂).map (fun p => ('"' :: p.1, p.2))
        else if e = '\\' then (parseStrBody r₂).map (fun p => ('\\' :: p.1, p.2))
        else if e = '/' then (parseStrBody r₂).map (fun p => ('/' :: p.1, p.2))
        else if e = 'n' then (parseStrBody r₂).map (fun p => ('\n' :: p.1, p.2))
        else if e = 'r' then (parseStrBody r₂).map (fun p => ('\r' :: p.1, p.2))
        else if e = 't' then (parseStrBody r₂).map (fun p => ('\t' :: p.1, p.2))
        else if e = 'b' then (parseStrBody r₂).map (fun p => ('\x08' :: p.1, p.2))
        else if e = 'f' then (parseStrBody r₂).map (fun p => ('\x0c' :: p.1, p.2))
        else if e = 'u' then
          match r₂ with
          | h1 :: h2 :: h3 :: h4 :: r₃ =>
            match hexVal h1, hexVal h2, hexVal h3, hexVal h4 with
            | some a, some b, some c', some d =>
              let n := ((a * 16 + b) * 16 + c') * 16 + d
              if n < 55296 then (parseStrBody r₃).map (fun p => (Char.ofNat n :: p.1, p.2))
              else if 57344 ≤ n then (parseStrBody r₃).map (fun p => (Char.ofNat n :: p.1, p.2))
              else none
            | _, _, _, _ => none
          | _ => none
        else none
    else if c.toNat < 32 then none
    else (parseStrBody r).map (fun p => (c :: p.1, p.2))

/-- Consume a maximal run of decimal digits, accumulating their value. -/
def parseDigits : Chars → Nat → Nat × Chars
  | [], acc => (acc, [])
  | c :: r, acc =>
    if c.isDigit then parseDigits r (acc * 10 + (c.toNat - 48))
    else (acc, c :: r)

/-- Parse a JSON integer token (after an optional leading minus, which is
recorded in `neg`); leading zeros are rejected as in the JSON grammar. -/
def parseNumTok (neg : Bool) : Chars → Option (Json × Chars)
  | [] => none
  | c :: r =>
    if c.isDigit then
      let res :=
        let p := parseDigits r (c.toNat - 48)
        some ((Json.num (if neg then -(p.1 : Int) else (p.1 : Int)), p.2))
      if c = '0' then
        match r with
        | c₂ :: _ => if c₂.isDigit then none else res
        | [] => res
      else res
    else none

mutual
/-- Recursive-descent JSON value parser with fuel; `input length + 1` fuel
always suffices.  Object members are collected by repeated dict insertion,
as `json.loads` builds Python dicts. -/
def parseVal : Nat → Chars → Option (Json × Chars)
  | 0, _ => none
  | fuel + 1, s =>
    match skipWs s with
    | [] => none
    | c :: r =>
      if c = 'n' then
        match r with
        | 'u' :: 'l' :: 'l' :: r' => some (.null, r')
        | _ => none
      else if c = 't' then
        match r with
        | 'r' :: 'u' :: 'e' :: r' => some (.bool true, r')
        | _ => none
      else if c = 'f' then
        match r with
        | 'a' :: 'l' :: 's' :: 'e' :: r' => some (.bool false, r')
        | _ => none
      else if c = '"' then (parseStrBody r).map (fun p => (Json.str (String.mk p.1), p.2))
      else if c = '[' then
        let r₁ := skipWs r
        if r₁.head? = some ']' then some (.arr [], r₁.tail)
        else (parseElems fuel r₁).map (fun p => (Json.arr p.1, p.2))
      else if c = '\x7b' then
        let r₁ := skipWs r
        if r₁.head? = some '\x7d' then some (.obj [], r₁.tail)
        else
          (parseMembs fuel r₁).map
            (fun p => (Json.obj (p.1.foldl (fun d kv => dictSet d kv.1 kv.2) []), p.2))
      else if c = '-' then parseNumTok true r
      else if c.isDigit then parseNumTok false (c :: r)
      else none
/-- Parse one or more comma-separated array elements up to the closing `]`. -/
def parseElems : Nat → Chars → Option (List Json × Chars)
  | 0, _ => none
  | fuel + 1, s =>
    match parseVal fuel s with
    | none => none
    | some (v, r) =>
      match skipWs r with
      | ',' :: r' => (parseElems fuel r').map (fun p => (v :: p.1, p.2))
      | ']' :: r' => some ([v], r')
      | _ => none
/-- Parse one or more comma-separated object members up to the closing brace. -/
def parseMembs : Nat → Chars → Option (List (String × Json) × Chars)
  | 0, _ => none
  | fuel + 1, s =>
    match skipWs s with
    | '"' :: r =>
      match parseStrBody r with
      | none => none
      | some (kcs, r₁) =>
        match skipWs r₁ with
        | ':' :: r₂ =>
          match parseVal fuel r₂ with
          | none => none
          | some (v, r₃) =>
            match skipWs r₃ with
            | ',' :: r₄ => (parseMembs fuel r₄).map (fun p => ((String.mk kcs, v) :: p.1, p.2))
            | '}' :: r₄ => some ([(String.mk kcs, v)], r₄)
            | _ => none
        | _ => none
    | _ => none
end

/-- `json.loads(s)`, returning `none` where Python raises `JSONDecodeError`:
parse one value, allow trailing whitespace, reject trailing data. -/
def loads (s : Chars) : Option Json :=
  match parseVal (s.length + 1) s with
  | some (v, r) => if skipWs r = [] then some v else none
  | none => none


/-- True when the key is bound in the association list. -/
def hasKey : List (String × Json) → String → Bool
  | [], _ => false
  | (k', _) :: rest, k => if k' = k then true else hasKey rest k

/-- All keys of the association list are distinct. -/
def keysND : List (String × Json) → Bool
  | [] => true
  | (k, _) :: rest => !hasKey rest k && keysND rest

mutual
/-- Well-formed JSON values: every object member list has distinct keys
(Python dicts cannot hold duplicates).  All documents this gateway writes
are well formed. -/
def jwf : Json → Bool
  | .null => true
  | .bool _ => true
  | .num _ => true
  | .str _ => true
  | .arr xs => jwfL xs
  | .obj kvs => keysND kvs && jwfM kvs
def jwfL : List Json → Bool
  | [] => true
  | x :: xs => jwf x && jwfL xs
def jwfM : List (String × Json) → Bool
  | [] => true
  | (_, v) :: kvs => jwf v && jwfM kvs
end

mutual
/-- Parser-fuel measure of a JSON value. -/
def jsize : Json → Nat
  | .null => 1
  | .bool _ => 1
  | .num _ => 1
  | .str _ => 1
  | .arr xs => 1 + jsizeL xs
  | .obj kvs => 1 + jsizeM kvs
def jsizeL : List Json → Nat
  | [] => 0
  | x :: xs => 1 + jsize x + jsizeL xs
def jsizeM : List (String × Json) → Nat
  | [] => 0
  | (_, v) :: kvs => 1 + jsize v + jsizeM kvs
end

/-- The next input character, if any, is not a decimal digit. -/
def noDigitHead : Chars → Bool
  | [] => true
  | c :: _ => !c.isDigit

theorem digitChar_facts : ∀ d, d < 10 →
    ((Nat.digitChar d).isDigit = true ∧ jws (Nat.digitChar d) = false ∧
      pyWs (Nat.digitChar d) = false ∧ Nat.digitChar d ≠ ']' ∧
      Nat.digitChar d ≠ '\x7d' ∧ (Nat.digitChar d).toNat - 48 = d) := by decide

theorem digitChar_ne_dispatch : ∀ d, d < 10 →
    (Nat.digitChar d ≠ 'n' ∧ Nat.digitChar d ≠ 't' ∧ Nat.digitChar d ≠ 'f' ∧
      Nat.digitChar d ≠ '"' ∧ Nat.digitChar d ≠ '[' ∧ Nat.digitChar d ≠ '\x7b' ∧
      Nat.digitChar d ≠ '-' ∧ Nat.digitChar d ≠ '\n') := by decide

theorem digitChar_zero_iff : ∀ d, d < 10 → (Nat.digitChar d = '0' ↔ d = 0) := by decide

theorem hexVal_digitChar : ∀ h, h < 16 → hexVal (Nat.digitChar h) = some h := by decide

theorem natCharsGo_head : ∀ fuel n, n ≤ fuel → 1 ≤ n →
    ∃ d cs, 1 ≤ d ∧ d < 10 ∧ natCharsGo fuel n = Nat.digitChar d :: cs := by
  intro fuel
  induction fuel with
  | zero => intro n h1 h2; omega
  | succ f ih =>
    intro n hle h1
    by_cases h : n < 10
    · exact ⟨n, [], h1, h, by simp [natCharsGo, h]⟩
    · have hd : n / 10 ≤ f := by
        have := Nat.div_lt_self (by omega : 0 < n) (by norm_num : 1 < 10)
        omega
      obtain ⟨d, cs, hd1, hd2, hgo⟩ := ih (n / 10) hd (by omega)
      exact ⟨d, cs ++ [Nat.digitChar (n % 10)], hd1, hd2, by simp [natCharsGo, h, hgo]⟩

theorem natChars_head : ∀ n, ∃ d cs, d < 10 ∧ natChars n = Nat.digitChar d :: cs := by
  intro n
  by_cases h : n = 0
  · exact ⟨0, [], by norm_num, by simp [natChars, h]; rfl⟩
  · obtain ⟨d, cs, _, hd2, hgo⟩ := natCharsGo_head n n le_rfl (by omega)
    exact ⟨d, cs, hd2, by simp [natChars, h, hgo]⟩

theorem natChars_headNZ : ∀ n, 1 ≤ n →
    ∃ d cs, 1 ≤ d ∧ d < 10 ∧ natChars n = Nat.digitChar d :: cs := by
  intro n h1
  obtain ⟨d, cs, hd1, hd2, hgo⟩ := natCharsGo_head n n le_rfl h1
  exact ⟨d, cs, hd1, hd2, by simp [natChars, Nat.pos_iff_ne_zero.mp h1, hgo]⟩

theorem parseDigits_noDigit : ∀ r acc, noDigitHead r = true → parseDigits r acc = (acc, r) := by
  intro r acc h
  cases r with
  | nil => rfl
  | cons c cs =>
    simp [noDigitHead] at h
    simp [parseDigits, h]

theorem parseDigits_digitChar (d : Nat) (hd : d < 10) (r : Chars) (acc : Nat) :
    parseDigits (Nat.digitChar d :: r) acc = parseDigits r (acc * 10 + d) := by
  obtain ⟨h1, _, _, _, _, h6⟩ := digitChar_facts d hd
  simp [parseDigits, h1, h6]

theorem parseDigits_natCharsGo : ∀ fuel n, n ≤ fuel → ∀ rest acc,
    parseDigits (natCharsGo fuel n ++ rest) acc =
      parseDigits rest (acc * 10 ^ (natCharsGo fuel n).length + n) := by
  intro fuel
  induction fuel with
  | zero =>
    intro n hle rest acc
    have : n = 0 := by omega
    simp [natCharsGo, this, parseDigits]
  | succ f ih =>
    intro n hle rest acc
    by_cases h : n < 10
    · simp only [natCharsGo, h, if_true, List.cons_append, List.nil_append]
      rw [parseDigits_digitChar n h]
      simp
    · have hd : n / 10 ≤ f := by
        have := Nat.div_lt_self (by omega : 0 < n) (by norm_num : 1 < 10)
        omega
      simp only [natCharsGo, h, if_false, List.append_assoc, List.cons_append, List.nil_append]
      rw [ih (n / 10) hd]
      rw [parseDigits_digitChar (n % 10) (Nat.mod_lt n (by norm_num))]
      have hlen : (natCharsGo f (n / 10) ++ [Nat.digitChar (n % 10)]).length =
          (natCharsGo f (n / 10)).length + 1 := by simp
      rw [hlen, pow_succ]
      ring_nf
      congr 1
      have := Nat.div_add_mod n 10
      omega

theorem natCharsGo_ne_nil : ∀ fuel n, n ≤ fuel → 1 ≤ fuel → natCharsGo fuel n ≠ [] := by
  intro fuel n _ h1
  cases fuel with
  | zero => omega
  | succ f =>
    by_cases h : n < 10 <;> simp [natCharsGo, h]

theorem parseNumTok_natChars : ∀ (neg : Bool) m rest, noDigitHead rest = true →
    parseNumTok neg (natChars m ++ rest) =
      some (.num (if neg then -(m : Int) else (m : Int)), rest) := by
  intro neg m rest hrest
  by_cases hm : m = 0
  · subst hm
    have h0 : natChars 0 = ['0'] := by simp [natChars]
    rw [h0]
    simp only [List.cons_append, List.nil_append, parseNumTok]
    have : ('0').isDigit = true := by decide
    rw [if_pos this]
    rw [if_pos (by trivial)]
    have hres : parseDigits rest 0 = (0, rest) := parseDigits_noDigit rest 0 hrest
    have h48 : '0'.toNat - 48 = 0 := by decide
    cases rest with
    | nil =>
      simp only [h48, hres]
    | cons c cs =>
      simp only [noDigitHead, Bool.not_eq_true'] at hrest
      simp only [h48, hrest, Bool.false_eq_true, if_false, hres]
  · obtain ⟨d, cs, hd1, hd2, hnc⟩ := natChars_headNZ m (by omega)
    rw [hnc]
    obtain ⟨hdig, _, _, _, _, hval⟩ := digitChar_facts d hd2
    simp only [List.cons_append, parseNumTok]
    rw [if_pos hdig]
    rw [if_neg (by rw [digitChar_zero_iff d hd2]; omega)]
    have key : parseDigits (cs ++ rest) ((Nat.digitChar d).toNat - 48) = (m, rest) := by
      have h1 : parseDigits (natChars m ++ rest) 0 = parseDigits rest m := by
        have : natChars m = natCharsGo m m := by simp [natChars, hm]
        rw [this, parseDigits_natCharsGo m m le_rfl]
        simp
      rw [hnc] at h1
      rw [List.cons_append] at h1
      rw [parseDigits_digitChar d hd2] at h1
      simp at h1
      rw [hval]
      rw [h1]
      exact parseDigits_noDigit rest m hrest
    rw [key]

theorem skipWs_append_ws : ∀ w s, (∀ c ∈ w, jws c = true) → skipWs (w ++ s) = skipWs s := by
  intro w
  induction w with
  | nil => intro s _; rfl
  | cons c w ih =>
    intro s h
    have hc : jws c = true := h c (by simp)
    simp only [List.cons_append, skipWs, List.dropWhile_cons, hc, if_true]
    exact ih s (fun c' hc' => h c' (by simp [hc']))

theorem skipWs_cons_neg (c : Char) (s : Chars) (h : jws c = false) :
    skipWs (c :: s) = c :: s := by
  simp [skipWs, List.dropWhile_cons, h]

theorem nlInd_ws : ∀ ind lvl c, c ∈ nlInd ind lvl → jws c = true := by
  intro ind lvl c h
  cases ind with
  | none => simp [nlInd] at h
  | some k =>
    simp only [nlInd, List.mem_cons] at h
    rcases h with h | h
    · simp [h, jws]
    · simp [List.eq_of_mem_replicate h, jws]

theorem itemSep_shape : ∀ ind lvl, ∃ w, itemSep ind lvl = ',' :: w ∧ ∀ c ∈ w, jws c = true := by
  intro ind lvl
  cases ind with
  | none => exact ⟨[' '], rfl, by intro c h; simp at h; simp [h, jws]⟩
  | some k =>
    refine ⟨'\n' :: List.replicate (k * lvl) ' ', rfl, ?_⟩
    intro c h
    simp only [List.mem_cons] at h
    rcases h with h | h
    · simp [h, jws]
    · simp [List.eq_of_mem_replicate h, jws]

theorem hexVal_zero : hexVal '0' = some 0 := by decide

theorem psb_quote (rest : Chars) : parseStrBody ('"' :: rest) = some ([], rest) := by
  conv_lhs => rw [parseStrBody.eq_def]
  simp

theorem psb_escQuote (rest : Chars) :
    parseStrBody ('\\' :: '"' :: rest) = (parseStrBody rest).map (fun p => ('"' :: p.1, p.2)) := by
  conv_lhs => rw [parseStrBody.eq_def]
  simp only [Char.reduceEq, reduceIte]

theorem psb_escBack (rest : Chars) :
    parseStrBody ('\\' :: '\\' :: rest) = (parseStrBody rest).map (fun p => ('\\' :: p.1, p.2)) := by
  conv_lhs => rw [parseStrBody.eq_def]
  simp only [Char.reduceEq, reduceIte]

theorem psb_escN (rest : Chars) :
    parseStrBody ('\\' :: 'n' :: rest) = (parseStrBody rest).map (fun p => ('\n' :: p.1, p.2)) := by
  conv_lhs => rw [parseStrBody.eq_def]
  simp only [Char.reduceEq, reduceIte]

theorem psb_escR (rest : Chars) :
    parseStrBody ('\\' :: 'r' :: rest) = (parseStrBody rest).map (fun p => ('\r' :: p.1, p.2)) := by
  conv_lhs => rw [parseStrBody.eq_def]
  simp only [Char.reduceEq, reduceIte]

theorem psb_escT (rest : Chars) :
    parseStrBody ('\\' :: 't' :: rest) = (parseStrBody rest).map (fun p => ('\t' :: p.1, p.2)) := by
  conv_lhs => rw [parseStrBody.eq_def]
  simp only [Char.reduceEq, reduceIte]

theorem psb_escB (rest : Chars) :
    parseStrBody ('\\' :: 'b' :: rest) =
      (parseStrBody rest).map (fun p => ('\x08' :: p.1, p.2)) := by
  conv_lhs => rw [parseStrBody.eq_def]
  simp only [Char.reduceEq, reduceIte]

theorem psb_escF (rest : Chars) :
    parseStrBody ('\\' :: 'f' :: rest) =
      (parseStrBody rest).map (fun p => ('\x0c' :: p.1, p.2)) := by
  conv_lhs => rw [parseStrBody.eq_def]
  simp only [Char.reduceEq, reduceIte]

theorem psb_escU (a b : Nat) (ha : a < 16) (hb : b < 16)
    (hlt : ((0 * 16 + 0) * 16 + a) * 16 + b < 55296) (rest : Chars) :
    parseStrBody ('\\' :: 'u' :: '0' :: '0' :: Nat.digitChar a :: Nat.digitChar b :: rest) =
      (parseStrBody rest).map
        (fun p => (Char.ofNat (((0 * 16 + 0) * 16 + a) * 16 + b) :: p.1, p.2)) := by
  conv_lhs => rw [parseStrBody.eq_def]
  simp only [Char.reduceEq, reduceIte, hexVal_zero, hexVal_digitChar _ ha,
    hexVal_digitChar _ hb]
  rw [if_pos hlt]

theorem psb_raw (c : Char) (rest : Chars) (h1 : ¬c = '"') (h2 : ¬c = '\\')
    (h3 : ¬c.toNat < 32) :
    parseStrBody (c :: rest) = (parseStrBody rest).map (fun p => (c :: p.1, p.2)) := by
  conv_lhs => rw [parseStrBody.eq_def]
  simp [h1, h2, h3]

theorem parseStrBody_esc : ∀ cs rest, parseStrBody (escChars cs ++ '"' :: rest) = some (cs, rest) := by
  intro cs
  induction cs with
  | nil => intro rest; simpa [escChars] using psb_quote rest
  | cons c cs ih =>
    intro rest
    simp only [escChars, List.append_assoc]
    by_cases h1 : c = '"'
    · subst h1; simp [escChar, psb_escQuote, ih]
    · by_cases h2 : c = '\\'
      · subst h2; simp [escChar, psb_escBack, ih]
      · by_cases h3 : c = '\n'
        · subst h3; simp [escChar, psb_escN, ih]
        · by_cases h4 : c = '\r'
          · subst h4; simp [escChar, psb_escR, ih]
          · by_cases h5 : c = '\t'
            · subst h5; simp [escChar, psb_escT, ih]
            · by_cases h6 : c = '\x08'
              · subst h6; simp [escChar, psb_escB, ih]
              · by_cases h7 : c = '\x0c'
                · subst h7; simp [escChar, psb_escF, ih]
                · by_cases h8 : c.toNat < 32
                  · have ha : c.toNat / 16 < 16 := by omega
                    have hb : c.toNat % 16 < 16 := Nat.mod_lt _ (by norm_num)
                    have hlt : ((0 * 16 + 0) * 16 + c.toNat / 16) * 16 + c.toNat % 16 < 55296 := by
                      omega
                    simp only [escChar, h1, h2, h3, h4, h5, h6, h7, if_false, h8, if_true,
                      List.cons_append, List.nil_append]
                    rw [psb_escU _ _ ha hb hlt, ih rest]
                    have hn : c.toNat / 16 * 16 + c.toNat % 16 = c.toNat := by omega
                    simp only [Nat.zero_mul, Nat.zero_add, hn, Char.ofNat_toNat]
                    rfl
                  · simp only [escChar, h1, h2, h3, h4, h5, h6, h7, h8, if_false,
                      List.cons_append, List.nil_append]
                    rw [psb_raw c _ h1 h2 h8, ih rest]
                    rfl

theorem jws_not_digit (c : Char) (h : jws c = true) : c.isDigit = false := by
  simp only [jws, Bool.or_eq_true, decide_eq_true_eq] at h
  rcases h with ((h | h) | h) | h <;> subst h <;> decide

theorem noDigitHead_ws_append (wc rest : Chars) (hwc : ∀ c ∈ wc, jws c = true)
    (h : noDigitHead rest = true) : noDigitHead (wc ++ rest) = true := by
  cases wc with
  | nil => simpa using h
  | cons c w =>
    have := jws_not_digit c (hwc c (by simp))
    simp [noDigitHead, this]

theorem skipWs_ws_cons (wc : Chars) (c : Char) (rest : Chars)
    (hwc : ∀ x ∈ wc, jws x = true) (hc : jws c = false) :
    skipWs (wc ++ c :: rest) = c :: rest := by
  rw [skipWs_append_ws wc _ hwc, skipWs_cons_neg c rest hc]

theorem emitV_head (ind : Option Nat) (lvl : Nat) (v : Json) :
    ∃ c cs, emitV ind lvl v = c :: cs ∧ jws c = false ∧ pyWs c = false ∧
      c ≠ ']' ∧ c ≠ '\x7d' := by
  cases v with
  | null =>
    exact ⟨'n', ['u', 'l', 'l'], by simp [emitV], by decide, by decide, by decide, by decide⟩
  | bool b =>
    cases b with
    | true =>
      exact ⟨'t', ['r', 'u', 'e'], by simp [emitV], by decide, by decide, by decide, by decide⟩
    | false =>
      exact ⟨'f', ['a', 'l', 's', 'e'], by simp [emitV], by decide, by decide, by decide,
        by decide⟩
  | num n =>
    by_cases h : n < 0
    · exact ⟨'-', natChars n.natAbs, by simp [emitV, intChars, h], by decide, by decide,
        by decide, by decide⟩
    · obtain ⟨d, cs, hd, hnc⟩ := natChars_head n.natAbs
      obtain ⟨_, f2, f3, f4, f5, _⟩ := digitChar_facts d hd
      exact ⟨Nat.digitChar d, cs, by simp [emitV, intChars, h, hnc], f2, f3, f4, f5⟩
  | str s =>
    exact ⟨'"', escChars s.data ++ ['"'], by simp [emitV, escStr], by decide, by decide,
      by decide, by decide⟩
  | arr xs =>
    cases xs with
    | nil => exact ⟨'[', [']'], by simp [emitV], by decide, by decide, by decide, by decide⟩
    | cons x xs =>
      exact ⟨'[', nlInd ind (lvl + 1) ++ (emitV ind (lvl + 1) x ++ (emitL ind (lvl + 1) xs
        ++ (nlInd ind lvl ++ [']']))), by simp [emitV], by decide, by decide, by decide,
        by decide⟩
  | obj kvs =>
    cases kvs with
    | nil =>
      exact ⟨'\x7b', ['\x7d'], by simp [emitV], by decide, by decide, by decide, by decide⟩
    | cons kv kvs =>
      exact ⟨'\x7b', nlInd ind (lvl + 1) ++ (emitKV ind (lvl + 1) kv ++ (emitM ind (lvl + 1) kvs
        ++ (nlInd ind lvl ++ ['\x7d']))), by simp [emitV], by decide, by decide, by decide,
        by decide⟩

theorem skipWs_emitV (ind : Option Nat) (lvl : Nat) (v : Json) (w rest : Chars)
    (hw : ∀ c ∈ w, jws c = true) :
    skipWs (w ++ emitV ind lvl v ++ rest) = emitV ind lvl v ++ rest := by
  obtain ⟨c, cs, he, hjws, _, _, _⟩ := emitV_head ind lvl v
  rw [he]
  simp only [List.cons_append, List.append_assoc]
  exact skipWs_ws_cons w c (cs ++ rest) hw hjws

theorem hasKey_false_ne : ∀ (kvs : List (String × Json)) k, hasKey kvs k = false →
    ∀ kv ∈ kvs, kv.1 ≠ k := by
  intro kvs k h kv hmem
  induction kvs with
  | nil => simp at hmem
  | cons p rest ih =>
    simp only [hasKey] at h
    by_cases hp : p.1 = k
    · rw [show p = (p.1, p.2) from rfl] at h
      simp [hp] at h
    · rcases List.mem_cons.mp hmem with h1 | h1
      · subst h1; exact hp
      · apply ih _ h1
        rw [show p = (p.1, p.2) from rfl] at h
        simpa [hp] using h

theorem hasKey_append (a b : List (String × Json)) (k : String) :
    hasKey (a ++ b) k = (hasKey a k || hasKey b k) := by
  induction a with
  | nil => simp [hasKey]
  | cons p rest ih =>
    rw [show p = (p.1, p.2) from rfl]
    by_cases hp : p.1 = k <;> simp [hasKey, hp, ih]

theorem dictSet_append (kvs : List (String × Json)) (k : String) (v : Json)
    (h : hasKey kvs k = false) : dictSet kvs k v = kvs ++ [(k, v)] := by
  induction kvs with
  | nil => rfl
  | cons p rest ih =>
    rw [show p = (p.1, p.2) from rfl] at h ⊢
    simp only [hasKey] at h
    by_cases hp : p.1 = k
    · simp [hp] at h
    · simp only [dictSet, hp, if_false, List.cons_append, List.cons.injEq, true_and]
      exact ih (by simpa [hp] using h)

theorem foldl_dictSet_nd : ∀ (kvs acc : List (String × Json)), keysND kvs = true →
    (∀ kv ∈ kvs, hasKey acc kv.1 = false) →
    kvs.foldl (fun d kv => dictSet d kv.1 kv.2) acc = acc ++ kvs := by
  intro kvs
  induction kvs with
  | nil => intro acc _ _; simp
  | cons p rest ih =>
    intro acc hnd hacc
    rw [show p = (p.1, p.2) from rfl] at hnd ⊢
    simp only [keysND, Bool.and_eq_true, Bool.not_eq_true'] at hnd
    simp only [List.foldl_cons]
    rw [dictSet_append acc p.1 p.2 (hacc p (by simp))]
    rw [ih (acc ++ [(p.1, p.2)]) hnd.2 ?_]
    · simp
    · intro kv hkv
      rw [hasKey_append]
      have h1 : hasKey acc kv.1 = false := hacc kv (by simp [hkv])
      have h2 : hasKey [(p.1, p.2)] kv.1 = false := by
        have := hasKey_false_ne rest p.1 hnd.1 kv hkv
        simp [hasKey]
        intro heq
        exact absurd heq.symm this
      simp [h1, h2]

theorem dedup_id (kvs : List (String × Json)) (h : keysND kvs = true) :
    kvs.foldl (fun d kv => dictSet d kv.1 kv.2) [] = kvs := by
  simpa using foldl_dictSet_nd kvs [] h (by intro kv _; rfl)

/-- Round-trip property of a single JSON value: parsing its emitted form
(under any leading whitespace and any non-digit-headed trailing input)
returns the value exactly. -/
def RTV (v : Json) : Prop :=
  jwf v = true → ∀ fuel, jsize v ≤ fuel → ∀ ind lvl (w rest : Chars),
    (∀ c ∈ w, jws c = true) → noDigitHead rest = true →
    parseVal fuel (w ++ emitV ind lvl v ++ rest) = some (v, rest)

/-- Round-trip property of a non-empty emitted element list (the input as
`parseElems` receives it, up to the closing bracket). -/
def RTL : List Json → Prop
  | [] => True
  | x :: xs =>
    jwfL (x :: xs) = true → ∀ fuel, jsizeL (x :: xs) ≤ fuel →
      ∀ ind lvl (w wc rest : Chars),
      (∀ c ∈ w, jws c = true) → (∀ c ∈ wc, jws c = true) →
      parseElems fuel (w ++ emitV ind lvl x ++ emitL ind lvl xs ++ wc ++ ']' :: rest) =
        some (x :: xs, rest)

/-- Round-trip property of a non-empty emitted member list (the input as
`parseMembs` receives it, up to the closing brace). -/
def RTM : List (String × Json) → Prop
  | [] => True
  | (k, v) :: kvs =>
    jwfM ((k, v) :: kvs) = true → ∀ fuel, jsizeM ((k, v) :: kvs) ≤ fuel →
      ∀ ind lvl (w wc rest : Chars),
      (∀ c ∈ w, jws c = true) → (∀ c ∈ wc, jws c = true) →
      parseMembs fuel
          (w ++ emitKV ind lvl (k, v) ++ emitM ind lvl kvs ++ wc ++ '\x7d' :: rest) =
        some ((k, v) :: kvs, rest)

/-- Round-trip property of one object member, delegated to its value. -/
def RTKV : String × Json → Prop := fun kv => RTV kv.2

theorem rtv_null : RTV .null := by
  intro _ fuel hfuel ind lvl w rest hw hrest
  obtain ⟨f, rfl⟩ : ∃ f, fuel = f + 1 := ⟨fuel - 1, by simp [jsize] at hfuel; omega⟩
  have hws : skipWs (w ++ emitV ind lvl .null ++ rest) = 'n' :: 'u' :: 'l' :: 'l' :: rest := by
    simp only [emitV, List.cons_append, List.nil_append, List.append_assoc]
    exact skipWs_ws_cons w 'n' _ hw (by decide)
  rw [parseVal.eq_2, hws]
  simp only [Char.reduceEq, reduceIte]

theorem rtv_bool (b : Bool) : RTV (.bool b) := by
  intro _ fuel hfuel ind lvl w rest hw hrest
  obtain ⟨f, rfl⟩ : ∃ f, fuel = f + 1 := ⟨fuel - 1, by simp [jsize] at hfuel; omega⟩
  cases b with
  | true =>
    have hws : skipWs (w ++ emitV ind lvl (.bool true) ++ rest) =
        't' :: 'r' :: 'u' :: 'e' :: rest := by
      simp only [emitV, List.cons_append, List.nil_append, List.append_assoc]
      exact skipWs_ws_cons w 't' _ hw (by decide)
    rw [parseVal.eq_2, hws]
    simp only [Char.reduceEq, reduceIte]
  | false =>
    have hws : skipWs (w ++ emitV ind lvl (.bool false) ++ rest) =
        'f' :: 'a' :: 'l' :: 's' :: 'e' :: rest := by
      simp only [emitV, List.cons_append, List.nil_append, List.append_assoc]
      exact skipWs_ws_cons w 'f' _ hw (by decide)
    rw [parseVal.eq_2, hws]
    simp only [Char.reduceEq, reduceIte]

theorem rtv_num (n : Int) : RTV (.num n) := by
  intro _ fuel hfuel ind lvl w rest hw hrest
  obtain ⟨f, rfl⟩ : ∃ f, fuel = f + 1 := ⟨fuel - 1, by simp [jsize] at hfuel; omega⟩
  by_cases h : n < 0
  · have hws : skipWs (w ++ emitV ind lvl (.num n) ++ rest) =
        '-' :: (natChars n.natAbs ++ rest) := by
      simp only [emitV, intChars, h, if_true, List.cons_append, List.append_assoc]
      exact skipWs_ws_cons w '-' _ hw (by decide)
    rw [parseVal.eq_2, hws]
    simp only [Char.reduceEq, reduceIte]
    rw [parseNumTok_natChars true n.natAbs rest hrest]
    have : -((n.natAbs : Int)) = n := by omega
    simp [this, abs_of_neg h]
  · obtain ⟨d, cs, hd, hnc⟩ := natChars_head n.natAbs
    obtain ⟨hdig, hjw, _, _, _, _⟩ := digitChar_facts d hd
    obtain ⟨g1, g2, g3, g4, g5, g6, g7, _⟩ := digitChar_ne_dispatch d hd
    have hws : skipWs (w ++ emitV ind lvl (.num n) ++ rest) =
        Nat.digitChar d :: (cs ++ rest) := by
      simp only [emitV, intChars, h, if_false, hnc, List.cons_append, List.append_assoc]
      exact skipWs_ws_cons w _ _ hw hjw
    rw [parseVal.eq_2, hws]
    simp only [g1, g2, g3, g4, g5, g6, g7, if_false, hdig, if_true]
    have hback : Nat.digitChar d :: (cs ++ rest) = natChars n.natAbs ++ rest := by
      rw [hnc]; simp
    rw [hback, parseNumTok_natChars false n.natAbs rest hrest]
    have : ((n.natAbs : Int)) = n := by omega
    simp [this]

theorem rtv_str (s : String) : RTV (.str s) := by
  intro _ fuel hfuel ind lvl w rest hw hrest
  obtain ⟨f, rfl⟩ : ∃ f, fuel = f + 1 := ⟨fuel - 1, by simp [jsize] at hfuel; omega⟩
  have hws : skipWs (w ++ emitV ind lvl (.str s) ++ rest) =
      '"' :: (escChars s.data ++ '"' :: rest) := by
    simp only [emitV, escStr, List.cons_append, List.append_assoc, List.singleton_append]
    exact skipWs_ws_cons w '"' _ hw (by decide)
  rw [parseVal.eq_2, hws]
  simp only [Char.reduceEq, reduceIte]
  rw [parseStrBody_esc s.data rest]
  rfl

theorem rtv_arr (xs : List Json) (hxs : RTL xs) : RTV (.arr xs) := by
  intro hwf fuel hfuel ind lvl w rest hw hrest
  obtain ⟨f, rfl⟩ : ∃ f, fuel = f + 1 := ⟨fuel - 1, by simp [jsize] at hfuel; omega⟩
  cases xs with
  | nil =>
    have hws : skipWs (w ++ emitV ind lvl (.arr []) ++ rest) = '[' :: ']' :: rest := by
      simp only [emitV, List.cons_append, List.append_assoc, List.nil_append]
      exact skipWs_ws_cons w '[' _ hw (by decide)
    rw [parseVal.eq_2, hws]
    simp only [Char.reduceEq, reduceIte]
    rw [skipWs_cons_neg ']' rest (by decide)]
    simp
  | cons x xs' =>
    have hws : skipWs (w ++ emitV ind lvl (.arr (x :: xs')) ++ rest) =
        '[' :: (nlInd ind (lvl + 1) ++ (emitV ind (lvl + 1) x ++ (emitL ind (lvl + 1) xs'
          ++ (nlInd ind lvl ++ (']' :: rest))))) := by
      simp only [emitV, List.cons_append, List.append_assoc, List.singleton_append]
      exact skipWs_ws_cons w '[' _ hw (by decide)
    rw [parseVal.eq_2, hws]
    simp only [Char.reduceEq, reduceIte]
    have hr1 : skipWs (nlInd ind (lvl + 1) ++ (emitV ind (lvl + 1) x ++ (emitL ind (lvl + 1) xs'
        ++ (nlInd ind lvl ++ (']' :: rest))))) =
        emitV ind (lvl + 1) x ++ (emitL ind (lvl + 1) xs' ++ (nlInd ind lvl ++ (']' :: rest))) := by
      have := skipWs_emitV ind (lvl + 1) x (nlInd ind (lvl + 1))
        (emitL ind (lvl + 1) xs' ++ (nlInd ind lvl ++ (']' :: rest))) (nlInd_ws ind (lvl + 1))
      simpa [List.append_assoc] using this
    rw [hr1]
    have hhead : ¬((emitV ind (lvl + 1) x ++ (emitL ind (lvl + 1) xs'
        ++ (nlInd ind lvl ++ (']' :: rest)))).head? = some ']') := by
      obtain ⟨c, cs, he, _, _, hc1, _⟩ := emitV_head ind (lvl + 1) x
      rw [he]
      simp [hc1]
    rw [if_neg hhead]
    have hwf' : jwfL (x :: xs') = true := by simpa [jwf] using hwf
    have hfu : jsizeL (x :: xs') ≤ f := by simp [jsize] at hfuel; omega
    have happ : parseElems f ([] ++ emitV ind (lvl + 1) x ++ emitL ind (lvl + 1) xs'
        ++ nlInd ind lvl ++ ']' :: rest) = some (x :: xs', rest) :=
      hxs hwf' f hfu ind (lvl + 1) [] (nlInd ind lvl) rest (by simp) (nlInd_ws ind lvl)
    simp only [List.nil_append, List.append_assoc] at happ
    rw [happ]
    rfl

theorem rtv_obj (kvs : List (String × Json)) (hkvs : RTM kvs) : RTV (.obj kvs) := by
  intro hwf fuel hfuel ind lvl w rest hw hrest
  obtain ⟨f, rfl⟩ : ∃ f, fuel = f + 1 := ⟨fuel - 1, by simp [jsize] at hfuel; omega⟩
  cases kvs with
  | nil =>
    have hws : skipWs (w ++ emitV ind lvl (.obj []) ++ rest) = '\x7b' :: '\x7d' :: rest := by
      simp only [emitV, List.cons_append, List.append_assoc, List.nil_append]
      exact skipWs_ws_cons w '\x7b' _ hw (by decide)
    rw [parseVal.eq_2, hws]
    simp only [Char.reduceEq, reduceIte]
    rw [skipWs_cons_neg '\x7d' rest (by decide)]
    simp
  | cons kv kvs' =>
    obtain ⟨k, v⟩ := kv
    have hws : skipWs (w ++ emitV ind lvl (.obj ((k, v) :: kvs')) ++ rest) =
        '\x7b' :: (nlInd ind (lvl + 1) ++ (emitKV ind (lvl + 1) (k, v)
          ++ (emitM ind (lvl + 1) kvs' ++ (nlInd ind lvl ++ ('\x7d' :: rest))))) := by
      simp only [emitV, List.cons_append, List.append_assoc, List.singleton_append]
      exact skipWs_ws_cons w '\x7b' _ hw (by decide)
    rw [parseVal.eq_2, hws]
    simp only [Char.reduceEq, reduceIte]
    have hkvhead : ∃ t, emitKV ind (lvl + 1) (k, v) = '"' :: t := by
      refine ⟨escChars k.data ++ ['"'] ++ ([':', ' '] ++ emitV ind (lvl + 1) v), ?_⟩
      simp [emitKV, escStr, List.append_assoc]
    obtain ⟨t, ht⟩ := hkvhead
    have hr1 : skipWs (nlInd ind (lvl + 1) ++ (emitKV ind (lvl + 1) (k, v)
        ++ (emitM ind (lvl + 1) kvs' ++ (nlInd ind lvl ++ ('\x7d' :: rest))))) =
        emitKV ind (lvl + 1) (k, v)
          ++ (emitM ind (lvl + 1) kvs' ++ (nlInd ind lvl ++ ('\x7d' :: rest))) := by
      rw [ht]
      simp only [List.cons_append, List.append_assoc]
      exact skipWs_ws_cons _ '"' _ (nlInd_ws ind (lvl + 1)) (by decide)
    rw [hr1]
    have hhead : ¬((emitKV ind (lvl + 1) (k, v) ++ (emitM ind (lvl + 1) kvs'
        ++ (nlInd ind lvl ++ ('\x7d' :: rest)))).head? = some '\x7d') := by
      rw [ht]
      simp
    rw [if_neg hhead]
    have hwf' : keysND ((k, v) :: kvs') = true ∧ jwfM ((k, v) :: kvs') = true := by
      simpa [jwf, Bool.and_eq_true] using hwf
    have hfu : jsizeM ((k, v) :: kvs') ≤ f := by simp [jsize] at hfuel; omega
    have happ : parseMembs f ([] ++ emitKV ind (lvl + 1) (k, v) ++ emitM ind (lvl + 1) kvs'
        ++ nlInd ind lvl ++ '\x7d' :: rest) = some ((k, v) :: kvs', rest) :=
      hkvs hwf'.2 f hfu ind (lvl + 1) [] (nlInd ind lvl) rest (by simp) (nlInd_ws ind lvl)
    simp only [List.nil_append, List.append_assoc] at happ
    rw [happ]
    simp [dedup_id ((k, v) :: kvs') hwf'.1]

theorem rtl_cons (x : Json) (xs : List Json) (hx : RTV x) (hxs : RTL xs) : RTL (x :: xs) := by
  intro hwf fuel hfuel ind lvl w wc rest hw hwc
  obtain ⟨f, rfl⟩ : ∃ f, fuel = f + 1 := ⟨fuel - 1, by simp [jsizeL] at hfuel; omega⟩
  have hwf' : jwf x = true ∧ jwfL xs = true := by
    simpa [jwfL, Bool.and_eq_true] using hwf
  rw [parseElems.eq_2]
  cases xs with
  | nil =>
    have hx' : parseVal f (w ++ emitV ind lvl x ++ (wc ++ ']' :: rest)) =
        some (x, wc ++ ']' :: rest) :=
      hx hwf'.1 f (by simp [jsizeL] at hfuel; omega) ind lvl w (wc ++ ']' :: rest) hw
        (noDigitHead_ws_append wc _ hwc (by rfl))
    simp only [List.append_assoc] at hx' ⊢
    simp only [emitL, List.nil_append]
    rw [hx']
    have hsk : skipWs (wc ++ ']' :: rest) = ']' :: rest :=
      skipWs_ws_cons wc ']' rest hwc (by decide)
    simp only [hsk, Char.reduceEq, reduceIte]
  | cons y ys =>
    obtain ⟨sw, hsep, hsw⟩ := itemSep_shape ind lvl
    have hx' : parseVal f (w ++ emitV ind lvl x ++ (',' :: (sw ++ (emitV ind lvl y
        ++ (emitL ind lvl ys ++ (wc ++ ']' :: rest)))))) =
        some (x, ',' :: (sw ++ (emitV ind lvl y ++ (emitL ind lvl ys ++ (wc ++ ']' :: rest))))) :=
      hx hwf'.1 f (by simp [jsizeL] at hfuel; omega) ind lvl w _ hw (by rfl)
    have hgoal : w ++ emitV ind lvl x ++ emitL ind lvl (y :: ys) ++ wc ++ ']' :: rest =
        w ++ emitV ind lvl x ++ (',' :: (sw ++ (emitV ind lvl y
          ++ (emitL ind lvl ys ++ (wc ++ ']' :: rest))))) := by
      conv_lhs => rw [emitL]
      rw [hsep]
      simp [List.append_assoc]
    rw [hgoal, hx']
    have hsk : skipWs (',' :: (sw ++ (emitV ind lvl y ++ (emitL ind lvl ys
        ++ (wc ++ ']' :: rest))))) = ',' :: (sw ++ (emitV ind lvl y ++ (emitL ind lvl ys
        ++ (wc ++ ']' :: rest)))) := skipWs_cons_neg ',' _ (by decide)
    simp only [hsk, Char.reduceEq, reduceIte]
    have hrec : parseElems f (sw ++ emitV ind lvl y ++ emitL ind lvl ys ++ wc ++ ']' :: rest) =
        some (y :: ys, rest) :=
      hxs hwf'.2 f (by simp [jsizeL] at hfuel ⊢; omega) ind lvl sw wc rest hsw hwc
    simp only [List.append_assoc] at hrec
    rw [hrec]
    rfl

theorem rtm_cons (kv : String × Json) (kvs : List (String × Json)) (hv : RTKV kv)
    (hkvs : RTM kvs) : RTM (kv :: kvs) := by
  obtain ⟨k, v⟩ := kv
  have hvv : RTV v := hv
  intro hwf fuel hfuel ind lvl w wc rest hw hwc
  obtain ⟨f, rfl⟩ : ∃ f, fuel = f + 1 := ⟨fuel - 1, by simp [jsizeM] at hfuel; omega⟩
  have hwf' : jwf v = true ∧ jwfM kvs = true := by
    simpa [jwfM, Bool.and_eq_true] using hwf
  rw [parseMembs.eq_2]
  cases kvs with
  | nil =>
    have hws : skipWs (w ++ emitKV ind lvl (k, v) ++ emitM ind lvl [] ++ wc ++ '\x7d' :: rest) =
        '"' :: (escChars k.data ++ '"' :: (':' :: (' ' :: (emitV ind lvl v
          ++ (wc ++ '\x7d' :: rest))))) := by
      simp only [emitKV, escStr, emitM, List.cons_append, List.append_assoc,
        List.singleton_append, List.append_nil, List.nil_append]
      exact skipWs_ws_cons w '"' _ hw (by decide)
    rw [hws]
    simp only [Char.reduceEq, reduceIte]
    rw [parseStrBody_esc k.data]
    have hsk1 : skipWs (':' :: (' ' :: (emitV ind lvl v ++ (wc ++ '\x7d' :: rest)))) =
        ':' :: (' ' :: (emitV ind lvl v ++ (wc ++ '\x7d' :: rest))) :=
      skipWs_cons_neg ':' _ (by decide)
    simp only [hsk1, Char.reduceEq, reduceIte]
    have hv' : parseVal f ([' '] ++ emitV ind lvl v ++ (wc ++ '\x7d' :: rest)) =
        some (v, wc ++ '\x7d' :: rest) :=
      hvv hwf'.1 f (by simp [jsizeM] at hfuel; omega) ind lvl [' '] (wc ++ '\x7d' :: rest)
        (by intro c hc; simp at hc; simp [hc, jws])
        (noDigitHead_ws_append wc _ hwc (by rfl))
    simp only [List.singleton_append, List.cons_append, List.nil_append,
      List.append_assoc] at hv'
    rw [hv']
    have hsk2 : skipWs (wc ++ '\x7d' :: rest) = '\x7d' :: rest :=
      skipWs_ws_cons wc '\x7d' rest hwc (by decide)
    simp only [hsk2, Char.reduceEq, reduceIte]
  | cons kv' kvs' =>
    obtain ⟨k2, v2⟩ := kv'
    obtain ⟨sw, hsep, hsw⟩ := itemSep_shape ind lvl
    have hgoal : w ++ emitKV ind lvl (k, v) ++ emitM ind lvl ((k2, v2) :: kvs')
        ++ wc ++ '\x7d' :: rest =
        w ++ ('"' :: (escChars k.data ++ '"' :: (':' :: (' ' :: (emitV ind lvl v
          ++ (',' :: (sw ++ (emitKV ind lvl (k2, v2) ++ (emitM ind lvl kvs'
            ++ (wc ++ '\x7d' :: rest)))))))))) := by
      conv_lhs => rw [emitM]
      rw [hsep]
      simp [emitKV, escStr, List.append_assoc]
    rw [hgoal]
    have hws : skipWs (w ++ ('"' :: (escChars k.data ++ '"' :: (':' :: (' ' :: (emitV ind lvl v
        ++ (',' :: (sw ++ (emitKV ind lvl (k2, v2) ++ (emitM ind lvl kvs'
          ++ (wc ++ '\x7d' :: rest))))))))))) =
        '"' :: (escChars k.data ++ '"' :: (':' :: (' ' :: (emitV ind lvl v
          ++ (',' :: (sw ++ (emitKV ind lvl (k2, v2) ++ (emitM ind lvl kvs'
            ++ (wc ++ '\x7d' :: rest))))))))) :=
      skipWs_ws_cons w '"' _ hw (by decide)
    rw [hws]
    simp only [Char.reduceEq, reduceIte]
    rw [parseStrBody_esc k.data]
    have hsk1 : skipWs (':' :: (' ' :: (emitV ind lvl v ++ (',' :: (sw
        ++ (emitKV ind lvl (k2, v2) ++ (emitM ind lvl kvs' ++ (wc ++ '\x7d' :: rest)))))))) =
        ':' :: (' ' :: (emitV ind lvl v ++ (',' :: (sw ++ (emitKV ind lvl (k2, v2)
          ++ (emitM ind lvl kvs' ++ (wc ++ '\x7d' :: rest))))))) :=
      skipWs_cons_neg ':' _ (by decide)
    simp only [hsk1, Char.reduceEq, reduceIte]
    have hv' : parseVal f ([' '] ++ emitV ind lvl v ++ (',' :: (sw ++ (emitKV ind lvl (k2, v2)
        ++ (emitM ind lvl kvs' ++ (wc ++ '\x7d' :: rest)))))) =
        some (v, ',' :: (sw ++ (emitKV ind lvl (k2, v2)
          ++ (emitM ind lvl kvs' ++ (wc ++ '\x7d' :: rest))))) :=
      hvv hwf'.1 f (by simp [jsizeM] at hfuel; omega) ind lvl [' '] _
        (by intro c hc; simp at hc; simp [hc, jws]) (by rfl)
    simp only [List.singleton_append, List.cons_append, List.nil_append,
      List.append_assoc] at hv'
    rw [hv']
    have hsk2 : skipWs (',' :: (sw ++ (emitKV ind lvl (k2, v2) ++ (emitM ind lvl kvs'
        ++ (wc ++ '\x7d' :: rest))))) = ',' :: (sw ++ (emitKV ind lvl (k2, v2)
          ++ (emitM ind lvl kvs' ++ (wc ++ '\x7d' :: rest)))) :=
      skipWs_cons_neg ',' _ (by decide)
    simp only [hsk2, Char.reduceEq, reduceIte]
    have hrec : parseMembs f (sw ++ emitKV ind lvl (k2, v2) ++ emitM ind lvl kvs'
        ++ wc ++ '\x7d' :: rest) = some ((k2, v2) :: kvs', rest) :=
      hkvs hwf'.2 f (by simp [jsizeM] at hfuel ⊢; omega) ind lvl sw wc rest hsw hwc
    simp only [List.append_assoc] at hrec
    rw [hrec]
    rfl

/-- Master round-trip statement: every well-formed JSON value parses back
from its emitted form. -/
theorem parse_emitV (v : Json) : RTV v :=
  @Json.rec RTV RTL RTM RTKV rtv_null rtv_bool rtv_num rtv_str rtv_arr rtv_obj
    trivial rtl_cons trivial rtm_cons (fun _ _ h => h) v

/-- Size bound of one value against its emitted length. -/
def SBV (v : Json) : Prop := ∀ ind lvl, jsize v ≤ (emitV ind lvl v).length

/-- All elements satisfy the size bound. -/
def SBL (xs : List Json) : Prop := ∀ x ∈ xs, SBV x

/-- All member values satisfy the size bound. -/
def SBM (kvs : List (String × Json)) : Prop := ∀ kv ∈ kvs, SBV kv.2

/-- Size bound of one member, delegated to its value. -/
def SBKV : String × Json → Prop := fun kv => SBV kv.2

theorem natChars_length_pos (n : Nat) : 1 ≤ (natChars n).length := by
  obtain ⟨d, cs, _, hnc⟩ := natChars_head n
  simp [hnc]

theorem itemSep_length (ind : Option Nat) (lvl : Nat) : 2 ≤ (itemSep ind lvl).length := by
  cases ind <;> simp [itemSep]

theorem emitL_bound (xs : List Json) (h : SBL xs) (ind : Option Nat) (lvl : Nat) :
    jsizeL xs ≤ (emitL ind lvl xs).length := by
  induction xs with
  | nil => simp [jsizeL, emitL]
  | cons x xs ih =>
    have h1 := h x (by simp) ind lvl
    have h2 := ih (fun y hy => h y (by simp [hy]))
    have h3 := itemSep_length ind lvl
    simp only [jsizeL, emitL, List.length_append]
    omega

theorem emitM_bound (kvs : List (String × Json)) (h : SBM kvs) (ind : Option Nat) (lvl : Nat) :
    jsizeM kvs ≤ (emitM ind lvl kvs).length := by
  induction kvs with
  | nil => simp [jsizeM, emitM]
  | cons kv kvs ih =>
    obtain ⟨k, v⟩ := kv
    have h1 : jsize v ≤ (emitV ind lvl v).length := h (k, v) (by simp) ind lvl
    have h2 := ih (fun y hy => h y (by simp [hy]))
    have h3 := itemSep_length ind lvl
    simp only [jsizeM, emitM, emitKV, escStr, List.length_append]
    simp only [jsizeM] at h2
    omega

theorem sbv_null : SBV .null := by intro ind lvl; simp [jsize, emitV]

theorem sbv_bool (b : Bool) : SBV (.bool b) := by
  intro ind lvl; cases b <;> simp [jsize, emitV]

theorem sbv_num (n : Int) : SBV (.num n) := by
  intro ind lvl
  simp only [jsize, emitV, intChars]
  by_cases h : n < 0
  · simp only [h, if_true]
    have := natChars_length_pos n.natAbs
    simp
  · simp only [h, if_false]
    exact natChars_length_pos n.natAbs

theorem sbv_str (s : String) : SBV (.str s) := by
  intro ind lvl; simp [jsize, emitV, escStr]

theorem sbv_arr (xs : List Json) (hxs : SBL xs) : SBV (.arr xs) := by
  intro ind lvl
  cases xs with
  | nil => simp [jsize, jsizeL, emitV]
  | cons x xs' =>
    have h1 := hxs x (by simp) ind (lvl + 1)
    have h2 := emitL_bound xs' (fun y hy => hxs y (by simp [hy])) ind (lvl + 1)
    simp only [jsize, jsizeL, emitV, List.length_cons, List.length_append]
    omega

theorem sbv_obj (kvs : List (String × Json)) (hkvs : SBM kvs) : SBV (.obj kvs) := by
  intro ind lvl
  cases kvs with
  | nil => simp [jsize, jsizeM, emitV]
  | cons kv kvs' =>
    obtain ⟨k, v⟩ := kv
    have h1 : jsize v ≤ (emitV ind (lvl + 1) v).length := hkvs (k, v) (by simp) ind (lvl + 1)
    have h2 := emitM_bound kvs' (fun y hy => hkvs y (by simp [hy])) ind (lvl + 1)
    simp only [jsize, jsizeM, emitV, emitKV, escStr, List.length_cons, List.length_append]
    omega

theorem sbl_nil : SBL [] := by intro x hx; simp at hx

theorem sbl_cons (x : Json) (xs : List Json) (hx : SBV x) (hxs : SBL xs) : SBL (x :: xs) := by
  intro y hy
  rcases List.mem_cons.mp hy with h | h
  · subst h; exact hx
  · exact hxs y h

theorem sbm_nil : SBM [] := by intro kv hkv; simp at hkv

theorem sbm_cons (kv : String × Json) (kvs : List (String × Json)) (hv : SBKV kv)
    (hkvs : SBM kvs) : SBM (kv :: kvs) := by
  intro y hy
  rcases List.mem_cons.mp hy with h | h
  · subst h; exact hv
  · exact hkvs y h

/-- The parser fuel `jsize` is bounded by the emitted length. -/
theorem jsize_le_emit (v : Json) : SBV v :=
  @Json.rec SBV SBL SBM SBKV sbv_null sbv_bool sbv_num sbv_str sbv_arr sbv_obj
    sbl_nil sbl_cons sbm_nil sbm_cons (fun _ _ h => h) v

/-- `json.loads` inverts `json.dumps` (at any indentation) on well-formed
values. -/
theorem loads_emitV (v : Json) (h : jwf v = true) (ind : Option Nat) (lvl : Nat) :
    loads (emitV ind lvl v) = some v := by
  have hrt := parse_emitV v h ((emitV ind lvl v).length + 1)
    (by have := jsize_le_emit v ind lvl; omega) ind lvl [] [] (by simp) (by rfl)
  simp only [List.nil_append, List.append_nil] at hrt
  unfold loads
  rw [hrt]
  rfl

/-- Round-trip through the compact serializer used for JSONL records. -/
theorem loads_dumps (v : Json) (h : jwf v = true) : loads (dumps v) = some v :=
  loads_emitV v h none 0

/-- Round-trip through the indented serializer used for session documents. -/
theorem loads_dumpsIndent2 (v : Json) (h : jwf v = true) : loads (dumpsIndent2 v) = some v :=
  loads_emitV v h (some 2) 0

theorem natCharsGo_mem : ∀ fuel n c, c ∈ natCharsGo fuel n → ∃ d, d < 10 ∧ c = Nat.digitChar d := by
  intro fuel
  induction fuel with
  | zero => intro n c hc; simp [natCharsGo] at hc
  | succ f ih =>
    intro n c hc
    by_cases h : n < 10
    · simp [natCharsGo, h] at hc
      exact ⟨n, h, hc⟩
    · simp only [natCharsGo, h, if_false, List.mem_append, List.mem_singleton] at hc
      rcases hc with hc | hc
      · exact ih (n / 10) c hc
      · exact ⟨n % 10, Nat.mod_lt n (by norm_num), hc⟩

theorem natChars_mem (n : Nat) (c : Char) (hc : c ∈ natChars n) :
    ∃ d, d < 10 ∧ c = Nat.digitChar d := by
  by_cases h : n = 0
  · simp [natChars, h] at hc
    exact ⟨0, by norm_num, by simp [hc]; rfl⟩
  · exact natCharsGo_mem n n c (by simpa [natChars, h] using hc)

theorem digitChar16_ne_nl : ∀ d, d < 16 → Nat.digitChar d ≠ '\n' := by decide

theorem escChar_no_nl (c : Char) : '\n' ∉ escChar c := by
  by_cases h1 : c = '"'
  · simp [escChar, h1]
  · by_cases h2 : c = '\\'
    · simp [escChar, h1, h2]
    · by_cases h3 : c = '\n'
      · simp [escChar, h1, h2, h3]
      · by_cases h4 : c = '\r'
        · simp [escChar, h1, h2, h3, h4]
        · by_cases h5 : c = '\t'
          · simp [escChar, h1, h2, h3, h4, h5]
          · by_cases h6 : c = '\x08'
            · simp [escChar, h1, h2, h3, h4, h5, h6]
            · by_cases h7 : c = '\x0c'
              · simp [escChar, h1, h2, h3, h4, h5, h6, h7]
              · by_cases h8 : c.toNat < 32
                · have g1 := digitChar16_ne_nl (c.toNat / 16) (by omega)
                  have g2 := digitChar16_ne_nl (c.toNat % 16) (Nat.mod_lt _ (by norm_num))
                  simp [escChar, h1, h2, h3, h4, h5, h6, h7, h8]
                  exact ⟨fun he => g1 he.symm, fun he => g2 he.symm⟩
                · simp [escChar, h1, h2, h3, h4, h5, h6, h7, h8]
                  intro he
                  subst he
                  exact h8 (by decide)

theorem escChars_no_nl : ∀ cs, '\n' ∉ escChars cs := by
  intro cs
  induction cs with
  | nil => simp [escChars]
  | cons c cs ih =>
    simp only [escChars, List.mem_append]
    rintro (h | h)
    · exact escChar_no_nl c h
    · exact ih h

/-- No raw newline in a compactly emitted value. -/
def NLV (v : Json) : Prop := ∀ lvl, '\n' ∉ emitV none lvl v

/-- No raw newline in a compactly emitted element list. -/
def NLL (xs : List Json) : Prop := ∀ lvl, '\n' ∉ emitL none lvl xs

/-- No raw newline in a compactly emitted member list. -/
def NLM (kvs : List (String × Json)) : Prop := ∀ lvl, '\n' ∉ emitM none lvl kvs

/-- No raw newline in one member, delegated. -/
def NLKV : String × Json → Prop := fun kv => NLV kv.2

theorem nlv_null : NLV .null := by intro lvl; simp [emitV]

theorem nlv_bool (b : Bool) : NLV (.bool b) := by intro lvl; cases b <;> simp [emitV]

theorem nlv_num (n : Int) : NLV (.num n) := by
  intro lvl
  simp only [emitV, intChars]
  have key : '\n' ∉ natChars n.natAbs := by
    intro hc
    obtain ⟨d, hd, he⟩ := natChars_mem n.natAbs '\n' hc
    exact (digitChar_ne_dispatch d hd).2.2.2.2.2.2.2 he.symm
  by_cases h : n < 0
  · simp only [h, if_true, List.mem_cons]
    rintro (he | he)
    · exact absurd he.symm (by decide)
    · exact key he
  · simp only [h, if_false]
    exact key

theorem nlv_str (s : String) : NLV (.str s) := by
  intro lvl
  have h1 : '\n' ∉ escChars s.data := escChars_no_nl s.data
  simp [emitV, escStr, h1]

theorem nlv_arr (xs : List Json) (hxs : NLL xs) : NLV (.arr xs) := by
  intro lvl
  cases xs with
  | nil => simp [emitV]
  | cons x xs' =>
    have hx' : '\n' ∉ emitV none (lvl + 1) x := by
      intro m
      exact hxs (lvl + 1) (by simp [emitL, List.mem_append, m])
    have hxs' : '\n' ∉ emitL none (lvl + 1) xs' := by
      intro m
      exact hxs (lvl + 1) (by simp [emitL, List.mem_append, m])
    simp [emitV, nlInd, hx', hxs']

theorem nlv_obj (kvs : List (String × Json)) (hkvs : NLM kvs) : NLV (.obj kvs) := by
  intro lvl
  cases kvs with
  | nil => simp [emitV]
  | cons kv kvs' =>
    obtain ⟨k, v⟩ := kv
    have hv' : '\n' ∉ emitKV none (lvl + 1) (k, v) := by
      intro m
      exact hkvs (lvl + 1) (by simp [emitM, List.mem_append, m])
    have hkvs' : '\n' ∉ emitM none (lvl + 1) kvs' := by
      intro m
      exact hkvs (lvl + 1) (by simp [emitM, List.mem_append, m])
    simp [emitV, nlInd, hv', hkvs']

theorem nll_nil : NLL [] := by intro lvl; simp [emitL]

theorem nll_cons (x : Json) (xs : List Json) (hx : NLV x) (hxs : NLL xs) : NLL (x :: xs) := by
  intro lvl
  simp [emitL, itemSep, hx lvl, hxs lvl]

theorem nlm_nil : NLM [] := by intro lvl; simp [emitM]

theorem nlm_cons (kv : String × Json) (kvs : List (String × Json)) (hv : NLKV kv)
    (hkvs : NLM kvs) : NLM (kv :: kvs) := by
  obtain ⟨k, v⟩ := kv
  have hvv : NLV v := hv
  intro lvl
  have h1 : '\n' ∉ escChars k.data := escChars_no_nl k.data
  simp [emitM, emitKV, escStr, itemSep, h1, hvv lvl, hkvs lvl]

/-- A compactly dumped value contains no raw newline. -/
theorem dumps_no_nl (v : Json) : '\n' ∉ dumps v :=
  (@Json.rec NLV NLL NLM NLKV nlv_null nlv_bool nlv_num nlv_str nlv_arr nlv_obj
    nll_nil nll_cons nlm_nil nlm_cons (fun _ _ h => h) v) 0

/-- Lines joined by a single newline between them. -/
def interNl : List Chars → Chars
  | [] => []
  | [l] => l
  | l :: l' :: ls => l ++ '\n' :: interNl (l' :: ls)

/-- The blob content produced by appending each line followed by a newline
(the JSONL format written by the log store). -/
def linesOf (ls : List Chars) : Chars := ls.foldr (fun l acc => l ++ '\n' :: acc) []

theorem linesOf_eq : ∀ ls : List Chars, ls ≠ [] → linesOf ls = interNl ls ++ ['\n'] := by
  intro ls
  induction ls with
  | nil => intro h; exact absurd rfl h
  | cons l ls ih =>
    intro _
    cases ls with
    | nil => simp [linesOf, interNl]
    | cons l' ls' =>
      have := ih (by simp)
      simp only [linesOf, List.foldr_cons] at this ⊢
      rw [this]
      simp [interNl, List.append_assoc]

theorem dropWhile_pyWs_append (w s : Chars) (hw : ∀ c ∈ w, pyWs c = true) :
    List.dropWhile pyWs (w ++ s) = List.dropWhile pyWs s := by
  induction w with
  | nil => rfl
  | cons c w ih =>
    have hc : pyWs c = true := hw c (by simp)
    simp only [List.cons_append, List.dropWhile_cons, hc, if_true]
    exact ih (fun c' hc' => hw c' (by simp [hc']))

theorem pyStrip_sandwich (a : Char) (mid : Chars) (b : Char) (w : Chars)
    (ha : pyWs a = false) (hb : pyWs b = false) (hw : ∀ c ∈ w, pyWs c = true) :
    pyStrip ((a :: (mid ++ [b])) ++ w) = a :: (mid ++ [b]) := by
  unfold pyStrip
  have h1 : List.dropWhile pyWs ((a :: (mid ++ [b])) ++ w) = (a :: (mid ++ [b])) ++ w := by
    simp [List.dropWhile_cons, ha]
  rw [h1]
  have h2 : ((a :: (mid ++ [b])) ++ w).reverse = w.reverse ++ (b :: (mid.reverse ++ [a])) := by
    simp [List.reverse_append, List.reverse_cons]
  rw [h2]
  rw [dropWhile_pyWs_append _ _ (by intro c hc; exact hw c (List.mem_reverse.mp hc))]
  have h3 : List.dropWhile pyWs (b :: (mid.reverse ++ [a])) = b :: (mid.reverse ++ [a]) := by
    simp [List.dropWhile_cons, hb]
  rw [h3]
  simp

theorem splitNl_no_nl : ∀ l : Chars, '\n' ∉ l → splitNl l = [l] := by
  intro l
  induction l with
  | nil => intro _; rfl
  | cons c r ih =>
    intro h
    have hc : ¬c = '\n' := by intro he; exact h (by simp [he])
    have hr := ih (fun m => h (by simp [m]))
    simp [splitNl, hc, hr]

theorem splitNl_append : ∀ l rest : Chars, '\n' ∉ l →
    splitNl (l ++ '\n' :: rest) = l :: splitNl rest := by
  intro l
  induction l with
  | nil => intro rest _; simp [splitNl]
  | cons c r ih =>
    intro rest h
    have hc : ¬c = '\n' := by intro he; exact h (by simp [he])
    have hr := ih rest (fun m => h (by simp [m]))
    simp only [List.cons_append, splitNl, hc, if_false, List.append_eq, hr]

theorem splitNl_interNl : ∀ ls : List Chars, (∀ l ∈ ls, '\n' ∉ l) → ls ≠ [] →
    splitNl (interNl ls) = ls := by
  intro ls
  induction ls with
  | nil => intro _ h; exact absurd rfl h
  | cons l ls ih =>
    intro hnl _
    cases ls with
    | nil => exact splitNl_no_nl l (hnl l (by simp))
    | cons l' ls' =>
      rw [show interNl (l :: l' :: ls') = l ++ '\n' :: interNl (l' :: ls') from rfl]
      rw [splitNl_append l _ (hnl l (by simp))]
      rw [ih (fun x hx => hnl x (by simp [hx])) (by simp)]

theorem interNl_sandwich : ∀ ls : List Chars,
    (∀ l ∈ ls, ∃ mid, l = '\x7b' :: (mid ++ ['\x7d'])) → ls ≠ [] →
    ∃ mid, interNl ls = '\x7b' :: (mid ++ ['\x7d']) := by
  intro ls
  induction ls with
  | nil => intro _ h; exact absurd rfl h
  | cons l ls ih =>
    intro hsh _
    cases ls with
    | nil =>
      obtain ⟨m, hm⟩ := hsh l (by simp)
      exact ⟨m, by simpa [interNl] using hm⟩
    | cons l' ls' =>
      obtain ⟨m, hm⟩ := hsh l (by simp)
      obtain ⟨m2, hm2⟩ := ih (fun x hx => hsh x (by simp [hx])) (by simp)
      refine ⟨m ++ ('\x7d' :: '\n' :: '\x7b' :: m2), ?_⟩
      rw [show interNl (l :: l' :: ls') = l ++ '\n' :: interNl (l' :: ls') from rfl]
      rw [hm, hm2]
      simp [List.append_assoc]

theorem dumps_obj_shape (kvs : List (String × Json)) (h : kvs ≠ []) :
    ∃ mid, dumps (.obj kvs) = '\x7b' :: (mid ++ ['\x7d']) := by
  cases kvs with
  | nil => exact absurd rfl h
  | cons kv kvs' =>
    refine ⟨emitKV none 1 kv ++ emitM none 1 kvs', ?_⟩
    simp [dumps, emitV, nlInd, List.append_assoc]

/-
Storage layer (src/src/storage.py, class GCSFileStorage).

A bucket is an association list from blob names to contents, first binding
authoritative; `bput` overwrites in place or appends, modelling
`blob.upload_from_string`.  Each storage call receives a `GFate` recording
whether its (up to three) remote operations succeed: `ex` for
`blob.exists()`, `dl` for `download_as_text()`, `up` for
`upload_from_string()`.  A `false` outcome models the operation raising an
exception at that point of the Python control flow.
-/

abbrev Blob := Chars

abbrev Bucket := List (String × Blob)

/-- Lookup a blob by name. -/
def blobGet : Bucket → String → Option Blob
  | [], _ => none
  | (k', v) :: rest, k => if k' = k then some v else blobGet rest k

/-- Blob content with a default (used where existence was already checked). -/
def blobGetD (b : Bucket) (k : String) (d : Blob) : Blob := (blobGet b k).getD d

/-- `blob.exists()`. -/
def blobEx (b : Bucket) (k : String) : Bool := (blobGet b k).isSome

/-- `blob.upload_from_string`: whole-object overwrite. -/
def bput : Bucket → String → Blob → Bucket
  | [], k, v => [(k, v)]
  | (k', v') :: rest, k, v =>
    if k' = k then (k, v) :: rest else (k', v') :: bput rest k v

/-- Outcomes of the remote operations of one storage call. -/
structure GFate where
  ex : Bool
  dl : Bool
  up : Bool

/-- All remote operations of the call succeed. -/
def GFate.ok : GFate := ⟨true, true, true⟩

/-- `session_key.replace(":", "_")` of `_get_session_path`. -/
def sanitizeKey (sk : String) : String :=
  String.mk (sk.data.map (fun c => if c = ':' then '_' else c))

/-- `_get_session_path`: `sessions/<sanitized>`. -/
def sessionDir (sk : String) : String := "sessions/" ++ sanitizeKey sk

/-- Path of the session record document. -/
def sessionJsonPath (sk : String) : String := sessionDir sk ++ "/session.json"

/-- Path of the chat history JSONL log. -/
def chatHistPath (sk : String) : String := sessionDir sk ++ "/chat_history.jsonl"

/-- Path of the agent actions JSONL log. -/
def actionsPath (sk : String) : String := sessionDir sk ++ "/agent_actions.jsonl"

/-- Prefix of the session's workspace files. -/
def filesPref (sk : String) : String := sessionDir sk ++ "/files/"

/-- Python exception classes distinguished by the model. -/
inductive PyErr where
  | typeError : PyErr
  | ioError : PyErr
  | attrError : PyErr
  | appError (msg : String) : PyErr
deriving Repr

/-- Message of an exception, as `str(e)` produces it (stand-in text). -/
def errStr : PyErr → String
  | .typeError => "TypeError"
  | .ioError => "GCS operation failed"
  | .attrError => "AttributeError"
  | .appError m => m

/-- `GCSFileStorage.get_session`: read and parse `session.json`, returning
`none` on a missing blob and on any caught exception (I/O or JSON parse). -/
def get_session (g : GFate) (b : Bucket) (sk : String) : Option Json :=
  if g.ex then
    match blobGet b (sessionJsonPath sk) with
    | none => none
    | some content => if g.dl then loads content else none
  else none

/-- `GCSFileStorage.create_or_update_session`: merge-or-create the session
document, write it back with `json.dumps(..., indent=2)`, re-raising any
exception.  `metadata = []` covers both the `None` default and an empty
dict (they behave identically under `if metadata:` and `metadata or {}`). -/
def create_or_update_session (g : GFate) (b : Bucket) (sk uid : String)
    (metadata : List (String × Json)) (now : String) : Except PyErr (Json × Bucket) :=
  let s0 := get_session g b sk
  let mkNew : Except PyErr Json := .ok (.obj [("session_key", .str sk), ("user_id", .str uid),
    ("created_at", .str now), ("updated_at", .str now), ("metadata", .obj metadata)])
  let sess : Except PyErr Json :=
    match s0 with
    | some s =>
      if pyTruthy s then
        match s with
        | .obj kvs =>
          let kvs1 := dictSet kvs "updated_at" (.str now)
          let kvs2 := dictSet kvs1 "user_id" (.str uid)
          if metadata.isEmpty then .ok (.obj kvs2)
          else
            match dictGetD kvs2 "metadata" (.obj []) with
            | .obj old => .ok (.obj (dictSet kvs2 "metadata" (.obj (dictMerge old metadata))))
            | _ => .error .typeError
        | _ => .error .typeError
      else mkNew
    | none => mkNew
  match sess with
  | .error e => .error e
  | .ok s =>
    if g.up then .ok (s, bput b (sessionJsonPath sk) (dumpsIndent2 s))
    else .error .ioError

/-- The chat message document written by `save_chat_message`. -/
def chatMsgDoc (mid role : String) (content : Json) (md : List (String × Json))
    (now : String) : Json :=
  .obj [("message_id", .str mid), ("role", .str role), ("content", content),
    ("timestamp", .str now), ("metadata", .obj md)]

/-- `GCSFileStorage.save_chat_message`: append one JSON line to the chat
history blob via read-modify-write; every exception is caught and
swallowed, leaving the bucket unchanged. -/
def save_chat_message (g : GFate) (b : Bucket) (sk mid role : String) (content : Json)
    (md : List (String × Json)) (now : String) : Bucket :=
  let line := dumps (chatMsgDoc mid role content md now) ++ ['\n']
  if g.ex then
    match blobGet b (chatHistPath sk) with
    | some existing =>
      if g.dl then
        (if g.up then bput b (chatHistPath sk) (existing ++ line) else b)
      else b
    | none => if g.up then bput b (chatHistPath sk) line else b
  else b

/-- One pass of the history read loop: skip blank lines, parse each line,
skip lines that fail to parse. -/
def histLineStep (acc : List Json) (line : Chars) : List Json :=
  if pyStrip line = [] then acc
  else
    match loads line with
    | some v => acc ++ [v]
    | none => acc

/-- Python list slice `xs[i:]`. -/
def pySliceFrom (xs : List Json) (i : Int) : List Json :=
  if i < 0 then xs.drop (xs.length - i.natAbs) else xs.drop i.toNat

/-- `GCSFileStorage.get_chat_history`: read the blob, parse line by line,
and apply the `if limit: messages[-limit:]` truncation; any exception
outside the per-line parse yields `[]`. -/
def get_chat_history (g : GFate) (b : Bucket) (sk : String) (limit : Option Int) :
    List Json :=
  if g.ex then
    match blobGet b (chatHistPath sk) with
    | none => []
    | some content =>
      if g.dl then
        let messages := (splitNl (pyStrip content)).foldl histLineStep []
        match limit with
        | some l => if l ≠ 0 then pySliceFrom messages (-l) else messages
        | none => messages
      else []
  else []

/-- The action document written by `save_agent_action`. -/
def actionDoc (aid atype : String) (adata md : List (String × Json)) (now : String) : Json :=
  .obj [("action_id", .str aid), ("action_type", .str atype), ("action_data", .obj adata),
    ("timestamp", .str now), ("metadata", .obj md)]

/-- `GCSFileStorage.save_agent_action`: append one JSON line to the action
log; every exception is caught, returning an empty action id and leaving
the bucket unchanged.  `aid` is the generated `uuid4` string. -/
def save_agent_action (g : GFate) (b : Bucket) (sk atype : String)
    (adata md : List (String × Json)) (aid now : String) : String × Bucket :=
  let line := dumps (actionDoc aid atype adata md now) ++ ['\n']
  if g.ex then
    match blobGet b (actionsPath sk) with
    | some existing =>
      if g.dl then
        (if g.up then (aid, bput b (actionsPath sk) (existing ++ line)) else ("", b))
      else ("", b)
    | none => if g.up then (aid, bput b (actionsPath sk) line) else ("", b)
  else ("", b)

/-- Python `==` between a JSON value and a string. -/
def pyEqStr (v : Json) (t : String) : Bool :=
  match v with
  | .str s => s = t
  | _ => false

/-- The action read loop: the per-line `json.loads` failure is caught, but
`action.get("action_type")` on a parsed non-dict raises an AttributeError
that escapes to the outer handler (only when a type filter is given). -/
def actionsLoop (atype : Option String) : List Chars → List Json → Except PyErr (List Json)
  | [], acc => .ok acc
  | line :: rest, acc =>
    if pyStrip line = [] then actionsLoop atype rest acc
    else
      match loads line with
      | none => actionsLoop atype rest acc
      | some a =>
        match atype with
        | none => actionsLoop atype rest (acc ++ [a])
        | some t =>
          match a with
          | .obj kvs =>
            if pyEqStr (dictGetD kvs "action_type" .null) t then
              actionsLoop atype rest (acc ++ [a])
            else actionsLoop atype rest acc
          | _ => .error .attrError

/-- `GCSFileStorage.get_agent_actions`: like the history read, with an
optional `action_type` filter; any escaping exception yields `[]`. -/
def get_agent_actions (g : GFate) (b : Bucket) (sk : String) (atype : Option String)
    (limit : Option Int) : List Json :=
  if g.ex then
    match blobGet b (actionsPath sk) with
    | none => []
    | some content =>
      if g.dl then
        match actionsLoop atype (splitNl (pyStrip content)) [] with
        | .error _ => []
        | .ok actions =>
          match limit with
          | some l => if l ≠ 0 then pySliceFrom actions (-l) else actions
          | none => actions
      else []
  else []

/-
Workspace synchronisation (GCSFileStorage.sync_workspace_to_gcs /
sync_gcs_to_workspace).  A local directory is an association list from
relative path strings to file contents; `fmPut` overwrites like a file
write.  Per-path outcome functions model upload/download failures.
-/

abbrev FileMap := List (String × Chars)

/-- Lookup a local file. -/
def fmGet : FileMap → String → Option Chars
  | [], _ => none
  | (k', v) :: rest, k => if k' = k then some v else fmGet rest k

/-- Write a local file (overwrite or create). -/
def fmPut : FileMap → String → Chars → FileMap
  | [], k, v => [(k, v)]
  | (k', v') :: rest, k, v =>
    if k' = k then (k, v) :: rest else (k', v') :: fmPut rest k v

/-- Copy every file of `src` into `dst`, overwriting (shutil.copy2 loop). -/
def fmPutAll (dst src : FileMap) : FileMap :=
  src.foldl (fun d kv => fmPut d kv.1 kv.2) dst

/-- `GCSFileStorage.list_files`: names of blobs under a prefix (`list_blobs`);
an exception is caught and yields `[]`, handled by the caller's flag. -/
def list_files (b : Bucket) (pref : String) : List String :=
  (b.filter (fun kv => pref.data.isPrefixOf kv.1.data)).map (fun kv => kv.1)

/-- `GCSFileStorage.sync_workspace_to_gcs`: upload every local file under
the session's files prefix; a failing upload raises, which the function
catches, keeping the uploads already made. -/
def sync_workspace_to_gcs (upOk : String → Bool) (b : Bucket) (ws : FileMap)
    (sk : String) : Bucket :=
  syncUpGo upOk (filesPref sk) b ws
where
  syncUpGo (upOk : String → Bool) (pref : String) : Bucket → FileMap → Bucket
    | b, [] => b
    | b, (p, c) :: rest =>
      if upOk p then syncUpGo upOk pref (bput b (pref ++ p) c) rest else b

/-- `GCSFileStorage.download_file`: returns false (no write) when the blob
is missing or any operation raises. -/
def download_file (ok : Bool) (b : Bucket) (rp : String) (ws : FileMap) (lp : String) :
    FileMap :=
  if ok then
    match blobGet b rp with
    | none => ws
    | some c => fmPut ws lp c
  else ws

/-- `remote_path[len(prefix):]`. -/
def dropPref (pref rp : String) : String := String.mk (rp.data.drop pref.data.length)

/-- `GCSFileStorage.sync_gcs_to_workspace`: list the session's file blobs
and download each to its relative path; `listOk = false` models the list
call raising (caught inside `list_files`, yielding no files). -/
def sync_gcs_to_workspace (listOk : Bool) (dlOk : String → Bool) (b : Bucket)
    (ws : FileMap) (sk : String) : FileMap :=
  let files := if listOk then list_files b (filesPref sk) else []
  files.foldl (fun w rp => download_file (dlOk rp) b rp w (dropPref (filesPref sk) rp)) ws

/-
Session orchestrator (src/src/adapter.py, ServerlessGateway.handle_telegram_webhook).

The inbound update is a parsed JSON body.  External effects are explicit
parameters: the agent call result (`reply`), the files the agent adds to
its workspace (`agentNew`), the pre-existing local directories, uuid and
clock values, per-call GCS outcomes, and the outcome of the outbound
Telegram send.  The function returns the structured result, the bucket
after all writes, and the list of attempted outbound sends.
-/

/-- The telegram channel configuration consumed by the handler:
`allow_from` and `token` (empty string models a missing token). -/
structure TgConfig where
  allowFrom : List String
  token : String

/-- Outcome of the outbound `sendMessage` POST. -/
inductive DFate where
  | sent (apiOk : Bool) : DFate
  | timeoutErr : DFate
  | httpErr : DFate
  | transportErr : DFate

/-- Explicit environment of one handler invocation. -/
structure HEnv where
  gGet : GFate
  cGet : GFate
  cUp : Bool
  listOk : Bool
  dlOk : String → Bool
  upOk : String → Bool
  histRead : GFate
  histU : GFate
  histA : GFate
  act : GFate
  delivery : DFate
  reply : Except PyErr String
  agentWs0 : FileMap
  agentNew : FileMap
  sessWs0 : FileMap
  uuidU : String
  uuidA : String
  uuidAct : String
  nowSess : String
  nowU : String
  nowA : String
  nowAct : String

/-- Handler output: response document, bucket state, attempted sends. -/
structure HOut where
  result : Json
  bucket : Bucket
  sends : List (String × String)
deriving Repr

/-- The fixed fallback reply. -/
def fallbackMsg : String := "I received your message but couldn't generate a response."

/-- The agent workspace root of the adapter. -/
def workspaceRoot : String := "/tmp/nanobot_workspace"

/-- Python dict lookup with default on a JSON value; `.get` on a non-dict
raises (`AttributeError`). -/
def pyGetD (v : Json) (k : String) (d : Json) : Except PyErr Json :=
  match v with
  | .obj kvs => .ok (dictGetD kvs k d)
  | _ => .error .attrError

/-- Session resolution step of the handler: `get_session`, and
`create_or_update_session` when the result is falsy.  An error carries the
bucket at the raise point. -/
def sessEnsure (e : HEnv) (b : Bucket) (sk user_id : String)
    (ckvs : List (String × Json)) : Except (PyErr × Bucket) Bucket :=
  let session := get_session e.gGet b sk
  if pyTruthy (session.getD .null) then .ok b
  else
    match create_or_update_session e.cGet b sk user_id
      [("chat_type", dictGetD ckvs "type" (.str "unknown"))] e.nowSess with
    | .ok (_, b') => .ok b'
    | .error err => .error (err, b)

/-- Local file state of the handler after the agent invocation: the session
workspace after sync-in, copy to the agent workspace, agent-created files,
and copy back. -/
def sessWsFinal (e : HEnv) (b1 : Bucket) (sk : String) : FileMap :=
  let sWs1 := sync_gcs_to_workspace e.listOk e.dlOk b1 e.sessWs0 sk
  fmPutAll sWs1 (fmPutAll (fmPutAll e.agentWs0 sWs1) e.agentNew)

/-- Bucket state after all post-session-resolution writes of the handler:
the user record, the assistant record (if a non-empty reply), the workspace
push and the action record. -/
def hmainB5 (e : HEnv) (b1 : Bucket) (sk : String) (mkvs : List (String × Json))
    (textJ : Json) (response_text : String) : Bucket :=
  let b2 := save_chat_message e.histU b1 sk e.uuidU "user" textJ
    [("telegram_message_id", dictGetD mkvs "message_id" .null)] e.nowU
  let b3 := if response_text ≠ "" then
      save_chat_message e.histA b2 sk e.uuidA "assistant" (.str response_text) [] e.nowA
    else b2
  let sWs2 := sessWsFinal e b1 sk
  let b4 := sync_workspace_to_gcs e.upOk b3 sWs2 sk
  if sWs2 ≠ [] then
    (save_agent_action e.act b4 sk "file_operation"
      [("files_count", .num sWs2.length),
        ("workspace", .str (workspaceRoot ++ "/" ++ sanitizeKey sk))] [] e.uuidAct
      e.nowAct).2
  else b4

/-- Core of `handle_telegram_webhook` after the allow-list gate.  An error
carries the bucket state at the raise point (writes already made stay). -/
def hmain (cfg : TgConfig) (e : HEnv) (b : Bucket) (mkvs ckvs : List (String × Json))
    (chat_id user_id : String) (textJ : Json) : Except (PyErr × Bucket) HOut :=
  let sk := "telegram:" ++ chat_id
  match sessEnsure e b sk user_id ckvs with
  | .error err => .error err
  | .ok b1 =>
    let _hist := get_chat_history e.histRead b1 sk (some 50)
    let b2 := save_chat_message e.histU b1 sk e.uuidU "user" textJ
      [("telegram_message_id", dictGetD mkvs "message_id" .null)] e.nowU
    match e.reply with
    | .error err => .error (err, b2)
    | .ok response_text =>
      let b5 := hmainB5 e b1 sk mkvs textJ response_text
      let finalText := if response_text = "" ∨ pyStrip response_text.data = [] then fallbackMsg
        else response_text
      if cfg.token = "" then
        .ok ⟨.obj [("ok", .bool false), ("error", .str "Telegram bot token not configured")],
          b5, []⟩
      else
        let deliveryRes : Except PyErr Unit :=
          match e.delivery with
          | .sent _ => .ok ()
          | .timeoutErr => .error (.appError "Timeout sending message to Telegram API")
          | .httpErr => .error (.appError "HTTP error sending message to Telegram")
          | .transportErr => .error (.appError "Error sending message to Telegram")
        let _swallowed : Unit := match deliveryRes with
          | .ok _ => ()
          | .error _ => ()
        .ok ⟨.obj [("ok", .bool true), ("handled", .bool true), ("response", .str finalText)],
          b5, [(chat_id, finalText)]⟩

/-- Body of `handle_telegram_webhook` inside its outer `try`. -/
def hbody (cfg : TgConfig) (e : HEnv) (b : Bucket) (upd : Json) :
    Except (PyErr × Bucket) HOut :=
  match upd with
  | .obj ukvs =>
    let msgRaw := dictGetD ukvs "message" .null
    let message := if pyTruthy msgRaw then msgRaw else dictGetD ukvs "edited_message" .null
    if pyTruthy message then
      match message with
      | .obj mkvs =>
        let chatJ := dictGetD mkvs "chat" (.obj [])
        let userJ := dictGetD mkvs "from" (.obj [])
        let textJ := dictGetD mkvs "text" (.str "")
        match chatJ with
        | .obj ckvs =>
          let chat_id := pyStr (dictGetD ckvs "id" .null)
          match userJ with
          | .obj fkvs =>
            let user_id := pyStr (dictGetD fkvs "id" .null)
            match textJ with
            | .str _ =>
              if cfg.allowFrom ≠ [] ∧ user_id ∉ cfg.allowFrom then
                .ok ⟨.obj [("ok", .bool true), ("handled", .bool false),
                  ("error", .str "User not allowed")], b, []⟩
              else hmain cfg e b mkvs ckvs chat_id user_id textJ
            | .arr _ =>
              if cfg.allowFrom ≠ [] ∧ user_id ∉ cfg.allowFrom then
                .ok ⟨.obj [("ok", .bool true), ("handled", .bool false),
                  ("error", .str "User not allowed")], b, []⟩
              else hmain cfg e b mkvs ckvs chat_id user_id textJ
            | _ => .error (.typeError, b)
          | _ => .error (.attrError, b)
        | _ => .error (.attrError, b)
      | _ => .error (.attrError, b)
    else .ok ⟨.obj [("ok", .bool true), ("handled", .bool false)], b, []⟩
  | _ => .error (.attrError, b)

/-- `ServerlessGateway.handle_telegram_webhook`: the outer exception handler
converts any escaping exception into an `ok: false` structured result;
store writes already made before the raise remain in place. -/
def handle_telegram_webhook (cfg : TgConfig) (e : HEnv) (b : Bucket) (upd : Json) : HOut :=
  match hbody cfg e b upd with
  | .ok out => out
  | .error err => ⟨.obj [("ok", .bool false), ("error", .str (errStr err.1))], err.2, []⟩

theorem handler_run (cfg : TgConfig) (e : HEnv) (b b1 : Bucket)
    (ukvs mkvs ckvs fkvs : List (String × Json)) (t r : String)
    (hm : dictGetD ukvs "message" .null = .obj mkvs)
    (hmne : mkvs ≠ [])
    (hc : dictGetD mkvs "chat" (.obj []) = .obj ckvs)
    (hf : dictGetD mkvs "from" (.obj []) = .obj fkvs)
    (ht : dictGetD mkvs "text" (.str "") = .str t)
    (hallow : ¬(cfg.allowFrom ≠ [] ∧ pyStr (dictGetD fkvs "id" .null) ∉ cfg.allowFrom))
    (hses : sessEnsure e b ("telegram:" ++ pyStr (dictGetD ckvs "id" .null))
      (pyStr (dictGetD fkvs "id" .null)) ckvs = .ok b1)
    (hrep : e.reply = .ok r)
    (htok : cfg.token ≠ "") :
    handle_telegram_webhook cfg e b (.obj ukvs) =
      ⟨.obj [("ok", .bool true), ("handled", .bool true),
        ("response", .str (if r = "" ∨ pyStrip r.data = [] then fallbackMsg else r))],
       hmainB5 e b1 ("telegram:" ++ pyStr (dictGetD ckvs "id" .null)) mkvs (.str t) r,
       [(pyStr (dictGetD ckvs "id" .null),
         if r = "" ∨ pyStrip r.data = [] then fallbackMsg else r)]⟩ := by
  have hmt : pyTruthy (.obj mkvs) = true := by
    cases mkvs with
    | nil => exact absurd rfl hmne
    | cons _ _ => rfl
  simp only [handle_telegram_webhook, hbody, hm, hmt, if_true, hc, hf, ht,
    if_neg hallow, hmain, hses, hrep, if_neg htok]

theorem blobGet_bput_eq (b : Bucket) (k : String) (v : Blob) :
    blobGet (bput b k v) k = some v := by
  induction b with
  | nil => simp [bput, blobGet]
  | cons p rest ih =>
    rw [show p = (p.1, p.2) from rfl]
    by_cases hp : p.1 = k
    · simp [bput, blobGet, hp]
    · simp [bput, blobGet, hp, ih]

theorem blobGet_bput_ne (b : Bucket) (k k' : String) (v : Blob) (h : ¬k = k') :
    blobGet (bput b k v) k' = blobGet b k' := by
  induction b with
  | nil => simp [bput, blobGet, h]
  | cons p rest ih =>
    rw [show p = (p.1, p.2) from rfl]
    by_cases hp : p.1 = k
    · subst hp
      simp [bput, blobGet, h]
    · simp [bput, blobGet, hp, ih]

theorem list_append_cancel {α : Type} : ∀ (a b c : List α), a ++ b = a ++ c → b = c := by
  intro a
  induction a with
  | nil => intro b c h; simpa using h
  | cons x xs ih =>
    intro b c h
    simp only [List.cons_append, List.cons.injEq] at h
    exact ih _ _ h.2

theorem sessionJson_ne_chatHist (sk : String) : sessionJsonPath sk ≠ chatHistPath sk := by
  intro h
  have hd := congrArg String.data h
  simp only [sessionJsonPath, chatHistPath, String.data_append] at hd
  have h2 := list_append_cancel _ _ _ hd
  exact absurd h2 (by decide)

theorem actions_ne_chatHist (sk : String) : actionsPath sk ≠ chatHistPath sk := by
  intro h
  have hd := congrArg String.data h
  simp only [actionsPath, chatHistPath, String.data_append] at hd
  have h2 := list_append_cancel _ _ _ hd
  exact absurd h2 (by decide)

theorem filesBlob_ne_chatHist (sk p : String) : filesPref sk ++ p ≠ chatHistPath sk := by
  intro h
  have hd := congrArg String.data h
  simp only [filesPref, chatHistPath, String.data_append] at hd
  rw [List.append_assoc] at hd
  have h2 := list_append_cancel _ _ _ hd
  simp at h2

theorem syncUpGo_preserve (upOk : String → Bool) (pref : String) :
    ∀ (ws : FileMap) (b : Bucket) (k : String), (∀ p, ¬pref ++ p = k) →
    blobGet (sync_workspace_to_gcs.syncUpGo upOk pref b ws) k = blobGet b k := by
  intro ws
  induction ws with
  | nil => intro b k _; rfl
  | cons pc rest ih =>
    intro b k h
    rw [show pc = (pc.1, pc.2) from rfl]
    by_cases hup : upOk pc.1
    · simp only [sync_workspace_to_gcs.syncUpGo, hup, if_true]
      rw [ih _ k h, blobGet_bput_ne _ _ _ _ (h pc.1)]
    · simp [sync_workspace_to_gcs.syncUpGo, hup]

theorem syncUp_preserve_chatHist (upOk : String → Bool) (b : Bucket) (ws : FileMap)
    (sk : String) :
    blobGet (sync_workspace_to_gcs upOk b ws sk) (chatHistPath sk) =
      blobGet b (chatHistPath sk) := by
  unfold sync_workspace_to_gcs
  exact syncUpGo_preserve upOk (filesPref sk) ws b (chatHistPath sk)
    (fun p => filesBlob_ne_chatHist sk p)

theorem scm_preserve (g : GFate) (b : Bucket) (sk mid role : String) (content : Json)
    (md : List (String × Json)) (now : String) (k : String) (h : ¬chatHistPath sk = k) :
    blobGet (save_chat_message g b sk mid role content md now) k = blobGet b k := by
  unfold save_chat_message
  cases g.ex
  · simp
  · simp only [if_true]
    cases blobGet b (chatHistPath sk)
    · cases g.up <;> simp [blobGet_bput_ne _ _ _ _ h]
    · cases g.dl
      · simp
      · cases g.up <;> simp [blobGet_bput_ne _ _ _ _ h]

theorem saa_preserve (g : GFate) (b : Bucket) (sk atype : String)
    (adata md : List (String × Json)) (aid now : String) (k : String)
    (h : ¬actionsPath sk = k) :
    blobGet (save_agent_action g b sk atype adata md aid now).2 k = blobGet b k := by
  unfold save_agent_action
  cases g.ex
  · simp
  · simp only [if_true]
    cases blobGet b (actionsPath sk)
    · cases g.up <;> simp [blobGet_bput_ne _ _ _ _ h]
    · cases g.dl
      · simp
      · cases g.up <;> simp [blobGet_bput_ne _ _ _ _ h]

theorem create_ok_bucket (g : GFate) (b : Bucket) (sk uid : String)
    (md : List (String × Json)) (now : String) (s : Json) (b' : Bucket)
    (h : create_or_update_session g b sk uid md now = .ok (s, b')) :
    b' = bput b (sessionJsonPath sk) (dumpsIndent2 s) := by
  simp only [create_or_update_session] at h
  split at h
  · simp at h
  · rename_i s0 hs0
    cases hup : g.up
    · rw [hup] at h
      simp at h
    · rw [hup] at h
      simp only [if_true, Except.ok.injEq, Prod.mk.injEq] at h
      obtain ⟨h1, h2⟩ := h
      subst h1
      exact h2.symm

theorem sessEnsure_preserve (e : HEnv) (b b1 : Bucket) (sk user_id : String)
    (ckvs : List (String × Json)) (h : sessEnsure e b sk user_id ckvs = .ok b1)
    (k : String) (hk : ¬sessionJsonPath sk = k) :
    blobGet b1 k = blobGet b k := by
  simp only [sessEnsure] at h
  split at h
  · simp only [Except.ok.injEq] at h
    subst h
    rfl
  · split at h
    · rename_i s b' hc
      simp only [Except.ok.injEq] at h
      subst h
      rw [create_ok_bucket _ _ _ _ _ _ _ _ hc]
      exact blobGet_bput_ne _ _ _ _ hk
    · simp at h

theorem scm_ok_blob (b : Bucket) (sk mid role : String) (content : Json)
    (md : List (String × Json)) (now : String) :
    blobGetD (save_chat_message GFate.ok b sk mid role content md now) (chatHistPath sk) []
      = blobGetD b (chatHistPath sk) []
        ++ (dumps (chatMsgDoc mid role content md now) ++ ['\n']) := by
  unfold save_chat_message blobGetD
  cases hb : blobGet b (chatHistPath sk) with
  | none => simp [GFate.ok, hb, blobGet_bput_eq]
  | some ex => simp [GFate.ok, hb, blobGet_bput_eq]

theorem hmainB5_chatBlob (e : HEnv) (b1 : Bucket) (sk : String)
    (mkvs : List (String × Json)) (textJ : Json) (r : String)
    (hU : e.histU = GFate.ok) (hA : e.histA = GFate.ok) :
    blobGetD (hmainB5 e b1 sk mkvs textJ r) (chatHistPath sk) [] =
      blobGetD b1 (chatHistPath sk) []
        ++ (dumps (chatMsgDoc e.uuidU "user" textJ
              [("telegram_message_id", dictGetD mkvs "message_id" .null)] e.nowU) ++ ['\n'])
        ++ (if r ≠ "" then
              dumps (chatMsgDoc e.uuidA "assistant" (.str r) [] e.nowA) ++ ['\n']
            else []) := by
  unfold hmainB5
  have hb4 : ∀ (b3 : Bucket) (ws : FileMap),
      blobGetD (sync_workspace_to_gcs e.upOk b3 ws sk) (chatHistPath sk) []
        = blobGetD b3 (chatHistPath sk) [] := by
    intro b3 ws
    unfold blobGetD
    rw [syncUp_preserve_chatHist]
  have hb5 : ∀ (b4 : Bucket) (atype : String) (adata md : List (String × Json))
      (aid now : String),
      blobGetD (save_agent_action e.act b4 sk atype adata md aid now).2 (chatHistPath sk) []
        = blobGetD b4 (chatHistPath sk) [] := by
    intro b4 atype adata md aid now
    unfold blobGetD
    rw [saa_preserve _ _ _ _ _ _ _ _ _ (actions_ne_chatHist sk)]
  by_cases hws : sessWsFinal e b1 sk ≠ []
  · rw [if_pos hws, hb5, hb4]
    by_cases hr : r ≠ ""
    · rw [if_pos hr, if_pos hr, hA, scm_ok_blob, hU, scm_ok_blob]
    · rw [if_neg hr, if_neg hr, hU, scm_ok_blob, List.append_nil]
  · rw [if_neg hws, hb4]
    by_cases hr : r ≠ ""
    · rw [if_pos hr, if_pos hr, hA, scm_ok_blob, hU, scm_ok_blob]
    · rw [if_neg hr, if_neg hr, hU, scm_ok_blob, List.append_nil]

/-
Claim-level developments.
-/

/-- The per-line read policy as the specification states it: every
non-blank, parseable line contributes its parsed record, in order; blank
and malformed lines are skipped. -/
def specParseableLines (content : Chars) : List Json :=
  (splitNl (pyStrip content)).filterMap
    (fun line => if pyStrip line = [] then none else loads line)

theorem histFold_filterMap : ∀ (lines : List Chars) (acc : List Json),
    lines.foldl histLineStep acc
      = acc ++ lines.filterMap (fun line => if pyStrip line = [] then none else loads line) := by
  intro lines
  induction lines with
  | nil => intro acc; simp
  | cons line rest ih =>
    intro acc
    by_cases h : pyStrip line = []
    · simp [List.foldl_cons, histLineStep, h, ih, List.filterMap_cons]
    · cases hl : loads line
      · simp [List.foldl_cons, histLineStep, h, hl, ih, List.filterMap_cons]
      · simp [List.foldl_cons, histLineStep, h, hl, ih, List.filterMap_cons]

theorem actionsLoop_none : ∀ (lines : List Chars) (acc : List Json),
    actionsLoop none lines acc
      = .ok (acc ++ lines.filterMap
          (fun line => if pyStrip line = [] then none else loads line)) := by
  intro lines
  induction lines with
  | nil => intro acc; simp [actionsLoop]
  | cons line rest ih =>
    intro acc
    by_cases h : pyStrip line = []
    · simp [actionsLoop, h, ih, List.filterMap_cons]
    · cases hl : loads line
      · simp [actionsLoop, h, hl, ih, List.filterMap_cons]
      · simp [actionsLoop, h, hl, ih, List.filterMap_cons]

/-- C4: a log line that fails to parse as JSON is skipped on read; the read
returns exactly the parseable non-empty lines in order, both for the chat
history and for the action log, and a malformed line never aborts the read
nor affects adjacent valid records. -/
theorem c4_malformed_lines_skipped (b b' : Bucket) (sk sk' : String)
    (content content' : Chars)
    (hb : blobGet b (chatHistPath sk) = some content)
    (hb' : blobGet b' (actionsPath sk') = some content') :
    get_chat_history GFate.ok b sk none = specParseableLines content ∧
    get_agent_actions GFate.ok b' sk' none none = specParseableLines content' := by
  constructor
  · unfold get_chat_history
    simp [GFate.ok, hb, histFold_filterMap, specParseableLines]
  · unfold get_agent_actions
    simp [GFate.ok, hb', actionsLoop_none, specParseableLines]

/-- A chat-history blob with a malformed middle line. -/
def c4blob : Chars := ("\x7b\"a\": 1\x7d\nnot json\n\x7b\"b\": 2\x7d").data

/-- Bucket holding the malformed-line blob as both logs of session "s". -/
def c4bucket : Bucket := [(chatHistPath "s", c4blob), (actionsPath "s", c4blob)]

theorem c4_witness :
    blobGet c4bucket (chatHistPath "s") = some c4blob ∧
    blobGet c4bucket (actionsPath "s") = some c4blob ∧
    get_chat_history GFate.ok c4bucket "s" none = specParseableLines c4blob ∧
    get_agent_actions GFate.ok c4bucket "s" none none = specParseableLines c4blob := by
  refine ⟨rfl, rfl, ?_, ?_⟩
  · exact (c4_malformed_lines_skipped c4bucket c4bucket "s" "s" c4blob c4blob rfl rfl).1
  · exact (c4_malformed_lines_skipped c4bucket c4bucket "s" "s" c4blob c4blob rfl rfl).2

/-- C5: the best-effort log writers never raise.  `save_chat_message`
always returns a bucket: either unchanged (failure swallowed) or with the
single appended line; `save_agent_action` likewise, and on failure it
returns the empty-string action id with the bucket unchanged, while on
success it returns the generated id. -/
theorem c5_best_effort_saves_never_raise (g g' : GFate) (b b' : Bucket)
    (sk mid role : String) (content : Json) (md : List (String × Json)) (now : String)
    (atype : String) (adata md2 : List (String × Json)) (aid now' : String) :
    (save_chat_message g b sk mid role content md now = b ∨
      save_chat_message g b sk mid role content md now
        = bput b (chatHistPath sk)
            (blobGetD b (chatHistPath sk) []
              ++ (dumps (chatMsgDoc mid role content md now) ++ ['\n']))) ∧
    (((save_agent_action g' b' sk atype adata md2 aid now').1 = "" ∧
        (save_agent_action g' b' sk atype adata md2 aid now').2 = b') ∨
      ((save_agent_action g' b' sk atype adata md2 aid now').1 = aid ∧
        (save_agent_action g' b' sk atype adata md2 aid now').2
          = bput b' (actionsPath sk)
              (blobGetD b' (actionsPath sk) []
                ++ (dumps (actionDoc aid atype adata md2 now') ++ ['\n'])))) := by
  constructor
  · unfold save_chat_message
    cases hex : g.ex
    · left; simp
    · simp only [if_true]
      cases hb : blobGet b (chatHistPath sk)
      · cases hup : g.up
        · left; simp [hb, hup]
        · right; simp [hb, hup, blobGetD]
      · cases hdl : g.dl
        · left; simp [hb, hdl]
        · cases hup : g.up
          · left; simp [hb, hdl, hup]
          · right; simp [hb, hdl, hup, blobGetD]
  · unfold save_agent_action
    cases hex : g'.ex
    · left; simp
    · simp only [if_true]
      cases hb : blobGet b' (actionsPath sk)
      · cases hup : g'.up
        · left; simp [hb, hup]
        · right; simp [hb, hup, blobGetD]
      · cases hdl : g'.dl
        · left; simp [hb, hdl]
        · cases hup : g'.up
          · left; simp [hb, hdl, hup]
          · right; simp [hb, hdl, hup, blobGetD]

/-- C9: a limit of 0 is falsy in Python, so `get_chat_history` and
`get_agent_actions` treat `limit = 0` exactly like no limit, returning the
full record sequence. -/
theorem c9_zero_limit_means_no_limit (g : GFate) (b : Bucket) (sk : String)
    (atype : Option String) :
    get_chat_history g b sk (some 0) = get_chat_history g b sk none ∧
    get_agent_actions g b sk atype (some 0) = get_agent_actions g b sk atype none := by
  constructor
  · unfold get_chat_history
    cases hex : g.ex
    · rfl
    · simp only [if_true]
      cases hb : blobGet b (chatHistPath sk)
      · rfl
      · cases hdl : g.dl <;> simp [hdl]
  · unfold get_agent_actions
    cases hex : g.ex
    · rfl
    · simp only [if_true]
      cases hb : blobGet b (actionsPath sk)
      · rfl
      · cases hdl : g.dl
        · simp [hdl]
        · simp only [if_true]
          cases hacts : actionsLoop atype (splitNl (pyStrip _)) []
          · rfl
          · simp [hdl]

/-- C3: when the configured allow-list is non-empty and the sender's id is
absent from it, the handler returns the "User not allowed" result with the
bucket exactly as it was (no session write, no history append) and sends
nothing; an empty allow-list imposes no restriction and the handler
proceeds to the main flow. -/
theorem c3_allow_list_gate (cfg : TgConfig) (e : HEnv) (b : Bucket)
    (ukvs mkvs ckvs fkvs : List (String × Json)) (t : String)
    (hm : dictGetD ukvs "message" .null = .obj mkvs) (hmne : mkvs ≠ [])
    (hc : dictGetD mkvs "chat" (.obj []) = .obj ckvs)
    (hf : dictGetD mkvs "from" (.obj []) = .obj fkvs)
    (ht : dictGetD mkvs "text" (.str "") = .str t) :
    (cfg.allowFrom ≠ [] → pyStr (dictGetD fkvs "id" .null) ∉ cfg.allowFrom →
      handle_telegram_webhook cfg e b (.obj ukvs) =
        ⟨.obj [("ok", .bool true), ("handled", .bool false),
          ("error", .str "User not allowed")], b, []⟩) ∧
    (cfg.allowFrom = [] →
      handle_telegram_webhook cfg e b (.obj ukvs) =
        (match hmain cfg e b mkvs ckvs (pyStr (dictGetD ckvs "id" .null))
            (pyStr (dictGetD fkvs "id" .null)) (.str t) with
          | .ok out => out
          | .error err => ⟨.obj [("ok", .bool false), ("error", .str (errStr err.1))],
              err.2, []⟩)) := by
  have hmt : pyTruthy (.obj mkvs) = true := by
    cases mkvs with
    | nil => exact absurd rfl hmne
    | cons _ _ => rfl
  constructor
  · intro hne hnin
    have hcond : cfg.allowFrom ≠ [] ∧ pyStr (dictGetD fkvs "id" .null) ∉ cfg.allowFrom :=
      ⟨hne, hnin⟩
    simp only [handle_telegram_webhook, hbody, hm, hmt, if_true, hc, hf, ht, if_pos hcond]
  · intro hemp
    have hcond : ¬(cfg.allowFrom ≠ [] ∧ pyStr (dictGetD fkvs "id" .null) ∉ cfg.allowFrom) := by
      intro hy
      exact hy.1 hemp
    simp only [handle_telegram_webhook, hbody, hm, hmt, if_true, hc, hf, ht, if_neg hcond]

/-- Concrete chat object of the witness update. -/
def ckvsW : List (String × Json) := [("id", .num 5), ("type", .str "private")]

/-- Concrete sender object of the witness update. -/
def fkvsW : List (String × Json) := [("id", .num 7)]

/-- Concrete message object of the witness update. -/
def msgW : List (String × Json) :=
  [("message_id", .num 1), ("chat", .obj ckvsW), ("from", .obj fkvsW), ("text", .str "hello")]

/-- Concrete witness update body. -/
def updW : List (String × Json) := [("message", .obj msgW)]

/-- Concrete handler environment of the witnesses: all storage operations
succeed, with the given agent reply and delivery outcome. -/
def envOf (reply : Except PyErr String) (d : DFate) : HEnv :=
  ⟨GFate.ok, GFate.ok, true, true, fun _ => true, fun _ => true, GFate.ok, GFate.ok,
   GFate.ok, GFate.ok, d, reply, [], [], [], "u-1", "a-1", "x-1", "t0", "t1", "t2", "t3"⟩

theorem c3_witness :
    ((⟨["99"], "tok"⟩ : TgConfig).allowFrom ≠ [] →
      pyStr (dictGetD fkvsW "id" .null) ∉ (⟨["99"], "tok"⟩ : TgConfig).allowFrom →
      handle_telegram_webhook ⟨["99"], "tok"⟩ (envOf (.ok "hi") (.sent true)) [] (.obj updW) =
        ⟨.obj [("ok", .bool true), ("handled", .bool false),
          ("error", .str "User not allowed")], [], []⟩) ∧
    ((⟨["99"], "tok"⟩ : TgConfig).allowFrom = [] →
      handle_telegram_webhook ⟨["99"], "tok"⟩ (envOf (.ok "hi") (.sent true)) [] (.obj updW) =
        (match hmain ⟨["99"], "tok"⟩ (envOf (.ok "hi") (.sent true)) [] msgW ckvsW
            (pyStr (dictGetD ckvsW "id" .null)) (pyStr (dictGetD fkvsW "id" .null))
            (.str "hello") with
          | .ok out => out
          | .error err => ⟨.obj [("ok", .bool false), ("error", .str (errStr err.1))],
              err.2, []⟩)) :=
  c3_allow_list_gate ⟨["99"], "tok"⟩ (envOf (.ok "hi") (.sent true)) [] updW msgW ckvsW
    fkvsW "hello" rfl (by simp [msgW]) rfl rfl rfl

/-- Replace the delivery outcome of an environment. -/
def setDelivery (e : HEnv) (d : DFate) : HEnv :=
  ⟨e.gGet, e.cGet, e.cUp, e.listOk, e.dlOk, e.upOk, e.histRead, e.histU, e.histA, e.act,
   d, e.reply, e.agentWs0, e.agentNew, e.sessWs0, e.uuidU, e.uuidA, e.uuidAct,
   e.nowSess, e.nowU, e.nowA, e.nowAct⟩

theorem hmainB5_setDelivery (e : HEnv) (d : DFate) (b1 : Bucket) (sk : String)
    (mkvs : List (String × Json)) (tj : Json) (r : String) :
    hmainB5 (setDelivery e d) b1 sk mkvs tj r = hmainB5 e b1 sk mkvs tj r := rfl

/-- C6: when the outbound send fails (timeout, HTTP error, or transport
error), the failure is swallowed: the handler still returns the
`ok/handled/response` result, the returned bucket is the fully persisted
state (independent of delivery), and the whole output equals that of the
same run with a successful delivery. -/
theorem c6_delivery_failure_nonfatal (cfg : TgConfig) (e : HEnv) (b b1 : Bucket)
    (ukvs mkvs ckvs fkvs : List (String × Json)) (t r : String)
    (hm : dictGetD ukvs "message" .null = .obj mkvs) (hmne : mkvs ≠ [])
    (hc : dictGetD mkvs "chat" (.obj []) = .obj ckvs)
    (hf : dictGetD mkvs "from" (.obj []) = .obj fkvs)
    (ht : dictGetD mkvs "text" (.str "") = .str t)
    (hallow : ¬(cfg.allowFrom ≠ [] ∧ pyStr (dictGetD fkvs "id" .null) ∉ cfg.allowFrom))
    (hses : sessEnsure e b ("telegram:" ++ pyStr (dictGetD ckvs "id" .null))
      (pyStr (dictGetD fkvs "id" .null)) ckvs = .ok b1)
    (hrep : e.reply = .ok r)
    (htok : cfg.token ≠ "")
    (_hfail : e.delivery = .timeoutErr ∨ e.delivery = .httpErr ∨
      e.delivery = .transportErr) :
    handle_telegram_webhook cfg e b (.obj ukvs) =
      ⟨.obj [("ok", .bool true), ("handled", .bool true),
        ("response", .str (if r = "" ∨ pyStrip r.data = [] then fallbackMsg else r))],
       hmainB5 e b1 ("telegram:" ++ pyStr (dictGetD ckvs "id" .null)) mkvs (.str t) r,
       [(pyStr (dictGetD ckvs "id" .null),
         if r = "" ∨ pyStrip r.data = [] then fallbackMsg else r)]⟩ ∧
    handle_telegram_webhook cfg e b (.obj ukvs)
      = handle_telegram_webhook cfg (setDelivery e (.sent true)) b (.obj ukvs) := by
  have h1 := handler_run cfg e b b1 ukvs mkvs ckvs fkvs t r hm hmne hc hf ht hallow hses
    hrep htok
  have hses2 : sessEnsure (setDelivery e (.sent true)) b
      ("telegram:" ++ pyStr (dictGetD ckvs "id" .null))
      (pyStr (dictGetD fkvs "id" .null)) ckvs = .ok b1 := hses
  have hrep2 : (setDelivery e (.sent true)).reply = .ok r := hrep
  have h2 := handler_run cfg (setDelivery e (.sent true)) b b1 ukvs mkvs ckvs fkvs t r
    hm hmne hc hf ht hallow hses2 hrep2 htok
  refine ⟨h1, ?_⟩
  rw [h1, h2, hmainB5_setDelivery]

/-- The session document created on first contact by the witness run. -/
def sessW : Json := .obj [("session_key", .str "telegram:5"), ("user_id", .str "7"),
  ("created_at", .str "t0"), ("updated_at", .str "t0"),
  ("metadata", .obj [("chat_type", .str "private")])]

/-- The bucket after the witness run's session creation. -/
def b1W : Bucket := [(sessionJsonPath "telegram:5", dumpsIndent2 sessW)]

theorem c6_witness :
    handle_telegram_webhook ⟨[], "tok"⟩ (envOf (.ok "hi") .timeoutErr) [] (.obj updW) =
      ⟨.obj [("ok", .bool true), ("handled", .bool true),
        ("response", .str (if "hi" = "" ∨ pyStrip "hi".data = [] then fallbackMsg
          else "hi"))],
       hmainB5 (envOf (.ok "hi") .timeoutErr) b1W
         ("telegram:" ++ pyStr (dictGetD ckvsW "id" .null)) msgW (.str "hello") "hi",
       [(pyStr (dictGetD ckvsW "id" .null),
         if "hi" = "" ∨ pyStrip "hi".data = [] then fallbackMsg else "hi")]⟩ ∧
    handle_telegram_webhook ⟨[], "tok"⟩ (envOf (.ok "hi") .timeoutErr) [] (.obj updW)
      = handle_telegram_webhook ⟨[], "tok"⟩
          (setDelivery (envOf (.ok "hi") .timeoutErr) (.sent true)) [] (.obj updW) :=
  c6_delivery_failure_nonfatal ⟨[], "tok"⟩ (envOf (.ok "hi") .timeoutErr) [] b1W updW
    msgW ckvsW fkvsW "hello" "hi" rfl (by simp [msgW]) rfl rfl rfl (by decide) rfl rfl
    (by decide) (Or.inl rfl)

/-- C7: when the agent reply is empty or whitespace-only, the delivered
text and the returned "response" field are the fixed fallback message. -/
theorem c7_fallback_substitution (cfg : TgConfig) (e : HEnv) (b b1 : Bucket)
    (ukvs mkvs ckvs fkvs : List (String × Json)) (t r : String)
    (hm : dictGetD ukvs "message" .null = .obj mkvs) (hmne : mkvs ≠ [])
    (hc : dictGetD mkvs "chat" (.obj []) = .obj ckvs)
    (hf : dictGetD mkvs "from" (.obj []) = .obj fkvs)
    (ht : dictGetD mkvs "text" (.str "") = .str t)
    (hallow : ¬(cfg.allowFrom ≠ [] ∧ pyStr (dictGetD fkvs "id" .null) ∉ cfg.allowFrom))
    (hses : sessEnsure e b ("telegram:" ++ pyStr (dictGetD ckvs "id" .null))
      (pyStr (dictGetD fkvs "id" .null)) ckvs = .ok b1)
    (hrep : e.reply = .ok r)
    (htok : cfg.token ≠ "")
    (hempty : r = "" ∨ pyStrip r.data = []) :
    handle_telegram_webhook cfg e b (.obj ukvs) =
      ⟨.obj [("ok", .bool true), ("handled", .bool true), ("response", .str fallbackMsg)],
       hmainB5 e b1 ("telegram:" ++ pyStr (dictGetD ckvs "id" .null)) mkvs (.str t) r,
       [(pyStr (dictGetD ckvs "id" .null), fallbackMsg)]⟩ := by
  rw [handler_run cfg e b b1 ukvs mkvs ckvs fkvs t r hm hmne hc hf ht hallow hses hrep htok,
    if_pos hempty]

theorem c7_witness :
    handle_telegram_webhook ⟨[], "tok"⟩ (envOf (.ok "") (.sent true)) [] (.obj updW) =
      ⟨.obj [("ok", .bool true), ("handled", .bool true), ("response", .str fallbackMsg)],
       hmainB5 (envOf (.ok "") (.sent true)) b1W
         ("telegram:" ++ pyStr (dictGetD ckvsW "id" .null)) msgW (.str "hello") "",
       [(pyStr (dictGetD ckvsW "id" .null), fallbackMsg)]⟩ :=
  c7_fallback_substitution ⟨[], "tok"⟩ (envOf (.ok "") (.sent true)) [] b1W updW msgW
    ckvsW fkvsW "hello" "" rfl (by simp [msgW]) rfl rfl rfl (by decide) rfl rfl
    (by decide) (Or.inl rfl)

/-- C10: the chat history receives the assistant record exactly when the
agent's own reply string is non-empty; the fallback message is never
appended, so an empty-reply run appends only the user record. -/
theorem c10_assistant_record_iff_nonempty_reply (cfg : TgConfig) (e : HEnv) (b b1 : Bucket)
    (ukvs mkvs ckvs fkvs : List (String × Json)) (t r : String)
    (hm : dictGetD ukvs "message" .null = .obj mkvs) (hmne : mkvs ≠ [])
    (hc : dictGetD mkvs "chat" (.obj []) = .obj ckvs)
    (hf : dictGetD mkvs "from" (.obj []) = .obj fkvs)
    (ht : dictGetD mkvs "text" (.str "") = .str t)
    (hallow : ¬(cfg.allowFrom ≠ [] ∧ pyStr (dictGetD fkvs "id" .null) ∉ cfg.allowFrom))
    (hses : sessEnsure e b ("telegram:" ++ pyStr (dictGetD ckvs "id" .null))
      (pyStr (dictGetD fkvs "id" .null)) ckvs = .ok b1)
    (hrep : e.reply = .ok r)
    (htok : cfg.token ≠ "")
    (hU : e.histU = GFate.ok) (hA : e.histA = GFate.ok) :
    blobGetD (handle_telegram_webhook cfg e b (.obj ukvs)).bucket
        (chatHistPath ("telegram:" ++ pyStr (dictGetD ckvs "id" .null))) []
      = blobGetD b (chatHistPath ("telegram:" ++ pyStr (dictGetD ckvs "id" .null))) []
        ++ (dumps (chatMsgDoc e.uuidU "user" (.str t)
            [("telegram_message_id", dictGetD mkvs "message_id" .null)] e.nowU) ++ ['\n'])
        ++ (if r ≠ "" then
              dumps (chatMsgDoc e.uuidA "assistant" (.str r) [] e.nowA) ++ ['\n']
            else []) := by
  rw [handler_run cfg e b b1 ukvs mkvs ckvs fkvs t r hm hmne hc hf ht hallow hses hrep htok]
  dsimp only
  rw [hmainB5_chatBlob e b1 _ mkvs (.str t) r hU hA]
  have hp := sessEnsure_preserve e b b1 _ _ _ hses
    (chatHistPath ("telegram:" ++ pyStr (dictGetD ckvs "id" .null)))
    (sessionJson_ne_chatHist _)
  unfold blobGetD
  rw [hp]

theorem c10_witness :
    blobGetD (handle_telegram_webhook ⟨[], "tok"⟩ (envOf (.ok "hi") (.sent true)) []
        (.obj updW)).bucket
        (chatHistPath ("telegram:" ++ pyStr (dictGetD ckvsW "id" .null))) []
      = blobGetD ([] : Bucket)
          (chatHistPath ("telegram:" ++ pyStr (dictGetD ckvsW "id" .null))) []
        ++ (dumps (chatMsgDoc "u-1" "user" (.str "hello")
            [("telegram_message_id", dictGetD msgW "message_id" .null)] "t1") ++ ['\n'])
        ++ (if "hi" ≠ "" then
              dumps (chatMsgDoc "a-1" "assistant" (.str "hi") [] "t2") ++ ['\n']
            else []) :=
  c10_assistant_record_iff_nonempty_reply ⟨[], "tok"⟩ (envOf (.ok "hi") (.sent true)) []
    b1W updW msgW ckvsW fkvsW "hello" "hi" rfl (by simp [msgW]) rfl rfl rfl (by decide)
    rfl rfl (by decide) rfl rfl

theorem jwf_chatMsgDoc (mid role : String) (content : Json) (md : List (String × Json))
    (now : String) (h1 : jwf content = true) (h2 : keysND md = true)
    (h3 : jwfM md = true) :
    jwf (chatMsgDoc mid role content md now) = true := by
  simp [chatMsgDoc, jwf, jwfM, keysND, hasKey, h1, h2, h3]

/-- One `save_chat_message` call of an append sequence. -/
structure MsgCall where
  mid : String
  role : String
  content : Json
  md : List (String × Json)
  now : String

/-- The document a call appends. -/
def docOf (c : MsgCall) : Json := chatMsgDoc c.mid c.role c.content c.md c.now

/-- Apply a sequence of fully successful `save_chat_message` calls. -/
def applyMsgs (b : Bucket) (sk : String) (calls : List MsgCall) : Bucket :=
  calls.foldl
    (fun bb c => save_chat_message GFate.ok bb sk c.mid c.role c.content c.md c.now) b

theorem docOf_shape (c : MsgCall) : ∃ kvs, docOf c = .obj kvs ∧ kvs ≠ [] :=
  ⟨[("message_id", .str c.mid), ("role", .str c.role), ("content", c.content),
    ("timestamp", .str c.now), ("metadata", .obj c.md)], rfl, by simp⟩

theorem scm_ok_step (b : Bucket) (sk : String) (c : MsgCall) (cur : Chars)
    (hb : blobGet b (chatHistPath sk) = some cur) :
    save_chat_message GFate.ok b sk c.mid c.role c.content c.md c.now
      = bput b (chatHistPath sk) (cur ++ (dumps (docOf c) ++ ['\n'])) := by
  unfold save_chat_message
  simp [GFate.ok, hb, docOf]

theorem scm_ok_fresh (b : Bucket) (sk : String) (c : MsgCall)
    (hb : blobGet b (chatHistPath sk) = none) :
    save_chat_message GFate.ok b sk c.mid c.role c.content c.md c.now
      = bput b (chatHistPath sk) (dumps (docOf c) ++ ['\n']) := by
  unfold save_chat_message
  simp [GFate.ok, hb, docOf]

theorem applyMsgs_chatGet (sk : String) : ∀ (calls : List MsgCall) (b : Bucket) (cur : Chars),
    blobGet b (chatHistPath sk) = some cur →
    blobGet (applyMsgs b sk calls) (chatHistPath sk)
      = some (cur ++ linesOf (calls.map (fun c => dumps (docOf c)))) := by
  intro calls
  induction calls with
  | nil =>
    intro b cur hb
    simpa [applyMsgs, linesOf] using hb
  | cons c rest ih =>
    intro b cur hb
    simp only [applyMsgs, List.foldl_cons] at ih ⊢
    rw [scm_ok_step b sk c cur hb]
    rw [ih _ _ (blobGet_bput_eq _ _ _)]
    simp [linesOf, List.append_assoc]

theorem pyStrip_dumps_obj (kvs : List (String × Json)) (h : kvs ≠ []) :
    pyStrip (dumps (.obj kvs)) = dumps (.obj kvs) := by
  obtain ⟨mid, hm⟩ := dumps_obj_shape kvs h
  rw [hm]
  have := pyStrip_sandwich '\x7b' mid '\x7d' [] (by decide) (by decide)
    (by intro c hc; simp at hc)
  simpa using this

theorem dumps_obj_ne_nil (kvs : List (String × Json)) (h : kvs ≠ []) :
    dumps (.obj kvs) ≠ [] := by
  obtain ⟨mid, hm⟩ := dumps_obj_shape kvs h
  rw [hm]
  simp

theorem splitStrip_linesOf (docs : List Json) (hne : docs ≠ [])
    (hsh : ∀ d ∈ docs, ∃ kvs, d = .obj kvs ∧ kvs ≠ []) :
    splitNl (pyStrip (linesOf (docs.map dumps))) = docs.map dumps := by
  have hmapne : docs.map dumps ≠ [] := by
    cases docs with
    | nil => exact absurd rfl hne
    | cons d rest => simp
  have hnl : ∀ l ∈ docs.map dumps, '\n' ∉ l := by
    intro l hl
    obtain ⟨d, hd, rfl⟩ := List.mem_map.mp hl
    exact dumps_no_nl d
  have hshape : ∀ l ∈ docs.map dumps, ∃ mid, l = '\x7b' :: (mid ++ ['\x7d']) := by
    intro l hl
    obtain ⟨d, hd, rfl⟩ := List.mem_map.mp hl
    obtain ⟨kvs, hk, hkne⟩ := hsh d hd
    rw [hk]
    exact dumps_obj_shape kvs hkne
  rw [linesOf_eq _ hmapne]
  obtain ⟨mid, hm⟩ := interNl_sandwich _ hshape hmapne
  rw [hm]
  rw [pyStrip_sandwich '\x7b' mid '\x7d' ['\n'] (by decide) (by decide)
    (by intro c hc; simp at hc; subst hc; decide)]
  rw [← hm]
  exact splitNl_interNl _ hnl hmapne

theorem filterMap_dumps (docs : List Json)
    (hwf : ∀ d ∈ docs, jwf d = true)
    (hsh : ∀ d ∈ docs, ∃ kvs, d = .obj kvs ∧ kvs ≠ []) :
    (docs.map dumps).filterMap
      (fun line => if pyStrip line = [] then none else loads line) = docs := by
  induction docs with
  | nil => rfl
  | cons d rest ih =>
    obtain ⟨kvs, hk, hkne⟩ := hsh d (by simp)
    have hstrip : pyStrip (dumps d) = dumps d := by
      rw [hk]
      exact pyStrip_dumps_obj kvs hkne
    have hne2 : dumps d ≠ [] := by
      rw [hk]
      exact dumps_obj_ne_nil kvs hkne
    have hload : loads (dumps d) = some d := loads_dumps d (hwf d (by simp))
    have hrest := ih (fun x hx => hwf x (by simp [hx])) (fun x hx => hsh x (by simp [hx]))
    simp [List.filterMap_cons, hstrip, hne2, hload, hrest]

/-- C1: appending N valid chat records to a fresh log and reading with no
limit returns exactly those N records in append order; reading with a
positive limit k returns the last k of them (all of them when k exceeds
N), preserving order. -/
theorem c1_append_read_roundtrip (b : Bucket) (sk : String) (calls : List MsgCall)
    (hb0 : blobGet b (chatHistPath sk) = none)
    (hwf : ∀ c ∈ calls, jwf c.content = true ∧ keysND c.md = true ∧ jwfM c.md = true) :
    get_chat_history GFate.ok (applyMsgs b sk calls) sk none = calls.map docOf ∧
    ∀ k : Nat, 0 < k →
      get_chat_history GFate.ok (applyMsgs b sk calls) sk (some (k : Int))
        = (calls.map docOf).drop (calls.length - k) := by
  cases calls with
  | nil =>
    constructor
    · simp [applyMsgs, get_chat_history, GFate.ok, hb0]
    · intro k hk
      simp [applyMsgs, get_chat_history, GFate.ok, hb0]
  | cons c rest =>
    have hget : blobGet (applyMsgs b sk (c :: rest)) (chatHistPath sk)
        = some (linesOf (((c :: rest).map docOf).map dumps)) := by
      simp only [applyMsgs, List.foldl_cons]
      rw [scm_ok_fresh b sk c hb0]
      have hrec := applyMsgs_chatGet sk rest
        (bput b (chatHistPath sk) (dumps (docOf c) ++ ['\n']))
        (dumps (docOf c) ++ ['\n']) (blobGet_bput_eq _ _ _)
      simp only [applyMsgs] at hrec
      rw [hrec]
      simp only [linesOf, List.map_cons, List.foldr_cons, List.append_assoc,
        List.singleton_append, Option.some.injEq]
      rw [List.map_map]
      rfl
    have hwfD : ∀ d ∈ (c :: rest).map docOf, jwf d = true := by
      intro d hd
      obtain ⟨x, hx, rfl⟩ := List.mem_map.mp hd
      obtain ⟨h1, h2, h3⟩ := hwf x hx
      exact jwf_chatMsgDoc x.mid x.role x.content x.md x.now h1 h2 h3
    have hshD : ∀ d ∈ (c :: rest).map docOf, ∃ kvs, d = .obj kvs ∧ kvs ≠ [] := by
      intro d hd
      obtain ⟨x, hx, rfl⟩ := List.mem_map.mp hd
      exact docOf_shape x
    have hfold : (splitNl (pyStrip (linesOf (((c :: rest).map docOf).map dumps)))).foldl
        histLineStep [] = (c :: rest).map docOf := by
      rw [splitStrip_linesOf _ (by simp) hshD, histFold_filterMap,
        filterMap_dumps _ hwfD hshD]
      simp
    constructor
    · simp only [get_chat_history, GFate.ok, if_true, hget]
      exact hfold
    · intro k hk
      simp only [get_chat_history, GFate.ok, if_true, hget]
      have hk0 : ((k : Nat) : Int) ≠ 0 := by exact_mod_cast hk.ne'
      rw [if_pos hk0, hfold]
      unfold pySliceFrom
      rw [if_pos (by omega : -((k : Nat) : Int) < 0)]
      congr 1
      simp [List.length_map]

/-- Two concrete append calls of the C1 witness. -/
def callsW : List MsgCall :=
  [⟨"m1", "user", .str "hi", [], "t1"⟩, ⟨"m2", "assistant", .str "yo", [], "t2"⟩]

theorem c1_witness :
    blobGet ([] : Bucket) (chatHistPath "s") = none ∧
    (0 : Nat) < 1 ∧
    get_chat_history GFate.ok (applyMsgs [] "s" callsW) "s" none = callsW.map docOf ∧
    get_chat_history GFate.ok (applyMsgs [] "s" callsW) "s" (some ((1 : Nat) : Int))
      = (callsW.map docOf).drop (callsW.length - 1) :=
  ⟨rfl, by decide, (c1_append_read_roundtrip [] "s" callsW rfl (by decide)).1,
   (c1_append_read_roundtrip [] "s" callsW rfl (by decide)).2 1 (by decide)⟩

theorem hasKey_dictSet : ∀ (d : List (String × Json)) (k : String) (v : Json) (k' : String),
    hasKey (dictSet d k v) k' = true ↔ (k = k' ∨ hasKey d k' = true) := by
  intro d
  induction d with
  | nil =>
    intro k v k'
    by_cases h : k = k' <;> simp [dictSet, hasKey, h]
  | cons p rest ih =>
    intro k v k'
    rw [show p = (p.1, p.2) from rfl]
    by_cases h : p.1 = k
    · subst h
      by_cases h2 : p.1 = k' <;> simp [dictSet, hasKey, h2]
    · by_cases h2 : p.1 = k'
      · have hk2 : ¬k' = k := fun he => h (h2.trans he)
        simp [dictSet, hasKey, h, h2, hk2]
      · simp [dictSet, hasKey, h, h2, ih]

theorem keysND_dictSet : ∀ (d : List (String × Json)) (k : String) (v : Json),
    keysND d = true → keysND (dictSet d k v) = true := by
  intro d
  induction d with
  | nil => intro k v _; simp [dictSet, keysND, hasKey]
  | cons p rest ih =>
    intro k v h
    rw [show p = (p.1, p.2) from rfl] at h ⊢
    simp only [keysND, Bool.and_eq_true, Bool.not_eq_true'] at h
    by_cases hk : p.1 = k
    · subst hk
      simp [dictSet, keysND, h.1, h.2]
    · simp only [dictSet, hk, if_false, keysND, Bool.and_eq_true, Bool.not_eq_true']
      refine ⟨?_, ih k v h.2⟩
      by_cases hh : hasKey (dictSet rest k v) p.1 = true
      · rcases (hasKey_dictSet rest k v p.1).mp hh with h1 | h2
        · exact absurd h1.symm hk
        · rw [h.1] at h2
          exact absurd h2 (by simp)
      · simpa using hh

theorem jwfM_dictSet : ∀ (d : List (String × Json)) (k : String) (v : Json),
    jwfM d = true → jwf v = true → jwfM (dictSet d k v) = true := by
  intro d
  induction d with
  | nil => intro k v _ hv; simp [dictSet, jwfM, hv]
  | cons p rest ih =>
    intro k v h hv
    rw [show p = (p.1, p.2) from rfl] at h ⊢
    simp only [jwfM, Bool.and_eq_true] at h
    by_cases hk : p.1 = k
    · subst hk
      simp [dictSet, jwfM, hv, h.2]
    · simp [dictSet, hk, jwfM, h.1, ih k v h.2 hv]

theorem jwfM_mem : ∀ (d : List (String × Json)), jwfM d = true →
    ∀ kv ∈ d, jwf kv.2 = true := by
  intro d
  induction d with
  | nil => intro _ kv hkv; simp at hkv
  | cons p rest ih =>
    intro h kv hkv
    rw [show p = (p.1, p.2) from rfl] at h
    simp only [jwfM, Bool.and_eq_true] at h
    rcases List.mem_cons.mp hkv with h1 | h2
    · rw [h1]
      exact h.1
    · exact ih h.2 kv h2

theorem keysND_jwfM_dictMerge : ∀ (upd d : List (String × Json)),
    keysND d = true → jwfM d = true → (∀ kv ∈ upd, jwf kv.2 = true) →
    keysND (dictMerge d upd) = true ∧ jwfM (dictMerge d upd) = true := by
  intro upd
  induction upd with
  | nil => intro d h1 h2 _; exact ⟨h1, h2⟩
  | cons kv rest ih =>
    intro d h1 h2 h3
    simp only [dictMerge, List.foldl_cons] at ih ⊢
    exact ih (dictSet d kv.1 kv.2) (keysND_dictSet d kv.1 kv.2 h1)
      (jwfM_dictSet d kv.1 kv.2 h2 (h3 kv (by simp)))
      (fun x hx => h3 x (by simp [hx]))

theorem dictGet_dictSet : ∀ (d : List (String × Json)) (k : String) (v : Json) (k' : String),
    dictGet (dictSet d k v) k' = if k = k' then some v else dictGet d k' := by
  intro d
  induction d with
  | nil =>
    intro k v k'
    by_cases h : k = k' <;> simp [dictSet, dictGet, h]
  | cons p rest ih =>
    intro k v k'
    rw [show p = (p.1, p.2) from rfl]
    by_cases h : p.1 = k
    · subst h
      by_cases h2 : p.1 = k' <;> simp [dictSet, dictGet, h2]
    · by_cases h2 : p.1 = k'
      · have hk : ¬k = k' := fun he => h (h2.trans he.symm)
        have hk2 : ¬k' = k := fun he => hk he.symm
        simp [dictSet, dictGet, h, h2, hk, hk2]
      · simp [dictSet, dictGet, h, h2, ih]

theorem hasKey_false_dictGet : ∀ (d : List (String × Json)) (k : String),
    hasKey d k = false → dictGet d k = none := by
  intro d
  induction d with
  | nil => intro k _; rfl
  | cons p rest ih =>
    intro k h
    rw [show p = (p.1, p.2) from rfl] at h ⊢
    by_cases h2 : p.1 = k
    · simp [hasKey, h2] at h
    · simp only [hasKey, h2, if_false] at h
      simp [dictGet, h2, ih k h]

theorem dictGet_dictMerge : ∀ (upd d : List (String × Json)) (k : String),
    keysND upd = true →
    dictGet (dictMerge d upd) k
      = (match dictGet upd k with
         | some v => some v
         | none => dictGet d k) := by
  intro upd
  induction upd with
  | nil => intro d k _; rfl
  | cons p rest ih =>
    intro d k h
    rw [show p = (p.1, p.2) from rfl] at h ⊢
    simp only [keysND, Bool.and_eq_true, Bool.not_eq_true'] at h
    simp only [dictMerge, List.foldl_cons] at ih ⊢
    rw [ih (dictSet d p.1 p.2) k h.2]
    by_cases h2 : p.1 = k
    · subst h2
      rw [hasKey_false_dictGet rest p.1 h.1]
      simp [dictGet, dictGet_dictSet]
    · simp [dictGet, h2, dictGet_dictSet]

/-- One `create_or_update_session` call of an upsert sequence. -/
structure UpsCall where
  uid : String
  md : List (String × Json)
  now : String

/-- Apply a sequence of fully successful upsert calls, propagating any
raised exception as the Python caller would see it. -/
def applyUpserts (sk : String) : Bucket → List UpsCall → Except PyErr Bucket
  | b, [] => .ok b
  | b, c :: rest =>
    match create_or_update_session GFate.ok b sk c.uid c.md c.now with
    | .error e => .error e
    | .ok p => applyUpserts sk p.2 rest

/-- The session document shape maintained by the upsert sequence. -/
def expectedSession (sk uid cAt uAt : String) (M : List (String × Json)) : Json :=
  .obj [("session_key", .str sk), ("user_id", .str uid), ("created_at", .str cAt),
    ("updated_at", .str uAt), ("metadata", .obj M)]

/-- The specification's reading of the metadata union: the value of a key
is the one given by the last upsert whose metadata argument binds it. -/
def specMetaLookup (k : String) (init : Option Json) (calls : List UpsCall) : Option Json :=
  calls.foldl
    (fun r c => match dictGet c.md k with | some v => some v | none => r) init

/-- The merged metadata the store accumulates. -/
def mergeAll (M : List (String × Json)) (calls : List UpsCall) : List (String × Json) :=
  calls.foldl (fun A c => dictMerge A c.md) M

/-- The user id of the last upsert. -/
def lastUid (d : String) : List UpsCall → String
  | [] => d
  | c :: rest => lastUid c.uid rest

/-- The timestamp of the last upsert. -/
def lastNow (d : String) : List UpsCall → String
  | [] => d
  | c :: rest => lastNow c.now rest

theorem jwf_expectedSession (sk uid cAt uAt : String) (M : List (String × Json))
    (hM1 : keysND M = true) (hM2 : jwfM M = true) :
    jwf (expectedSession sk uid cAt uAt M) = true := by
  simp [expectedSession, jwf, jwfM, keysND, hasKey, hM1, hM2]

theorem upsert_create (b : Bucket) (sk uid now : String) (md : List (String × Json))
    (hb : blobGet b (sessionJsonPath sk) = none) :
    create_or_update_session GFate.ok b sk uid md now
      = .ok (expectedSession sk uid now now md,
             bput b (sessionJsonPath sk)
               (dumpsIndent2 (expectedSession sk uid now now md))) := by
  have hget : get_session ⟨true, true, true⟩ b sk = none := by
    unfold get_session
    simp [hb]
  simp [create_or_update_session, hget, expectedSession, GFate.ok]

theorem upsert_step (b : Bucket) (sk uid0 cAt uAt0 uid now : String)
    (M md : List (String × Json))
    (hM1 : keysND M = true) (hM2 : jwfM M = true)
    (hblob : blobGet b (sessionJsonPath sk)
      = some (dumpsIndent2 (expectedSession sk uid0 cAt uAt0 M))) :
    create_or_update_session GFate.ok b sk uid md now
      = .ok (expectedSession sk uid cAt now (dictMerge M md),
             bput b (sessionJsonPath sk)
               (dumpsIndent2 (expectedSession sk uid cAt now (dictMerge M md)))) := by
  have hget : get_session ⟨true, true, true⟩ b sk = some (expectedSession sk uid0 cAt uAt0 M) := by
    unfold get_session
    simp [hblob, loads_dumpsIndent2 _ (jwf_expectedSession sk uid0 cAt uAt0 M hM1 hM2)]
  cases md with
  | nil =>
    simp [create_or_update_session, hget, pyTruthy, expectedSession, dictSet, dictGetD,
      dictGet, dictMerge, GFate.ok]
  | cons kv mdr =>
    simp [create_or_update_session, hget, pyTruthy, expectedSession, dictSet, dictGetD,
      dictGet, GFate.ok]

theorem mergeAll_wf : ∀ (calls : List UpsCall) (M : List (String × Json)),
    keysND M = true → jwfM M = true → (∀ c ∈ calls, jwfM c.md = true) →
    keysND (mergeAll M calls) = true ∧ jwfM (mergeAll M calls) = true := by
  intro calls
  induction calls with
  | nil => intro M h1 h2 _; exact ⟨h1, h2⟩
  | cons c rest ih =>
    intro M h1 h2 h3
    simp only [mergeAll, List.foldl_cons] at ih ⊢
    have hnew := keysND_jwfM_dictMerge c.md M h1 h2 (jwfM_mem c.md (h3 c (by simp)))
    exact ih (dictMerge M c.md) hnew.1 hnew.2 (fun x hx => h3 x (by simp [hx]))

theorem mergeAll_lookup : ∀ (calls : List UpsCall) (M : List (String × Json)) (k : String),
    (∀ c ∈ calls, keysND c.md = true) →
    dictGet (mergeAll M calls) k = specMetaLookup k (dictGet M k) calls := by
  intro calls
  induction calls with
  | nil => intro M k _; rfl
  | cons c rest ih =>
    intro M k h
    simp only [mergeAll, specMetaLookup, List.foldl_cons] at ih ⊢
    rw [ih (dictMerge M c.md) k (fun x hx => h x (by simp [hx]))]
    rw [dictGet_dictMerge c.md M k (h c (by simp))]

theorem applyUpserts_run (sk : String) : ∀ (calls : List UpsCall) (b : Bucket)
    (uid0 cAt uAt0 : String) (M : List (String × Json)),
    keysND M = true → jwfM M = true →
    (∀ c ∈ calls, jwfM c.md = true) →
    blobGet b (sessionJsonPath sk)
      = some (dumpsIndent2 (expectedSession sk uid0 cAt uAt0 M)) →
    ∃ b', applyUpserts sk b calls = .ok b' ∧
      blobGet b' (sessionJsonPath sk)
        = some (dumpsIndent2 (expectedSession sk (lastUid uid0 calls) cAt
            (lastNow uAt0 calls) (mergeAll M calls))) := by
  intro calls
  induction calls with
  | nil =>
    intro b uid0 cAt uAt0 M _ _ _ hblob
    exact ⟨b, rfl, by simpa [lastUid, lastNow, mergeAll] using hblob⟩
  | cons c rest ih =>
    intro b uid0 cAt uAt0 M hM1 hM2 hwf hblob
    have hstep := upsert_step b sk uid0 cAt uAt0 c.uid c.now M c.md hM1 hM2 hblob
    have hnew := keysND_jwfM_dictMerge c.md M hM1 hM2 (jwfM_mem c.md (hwf c (by simp)))
    obtain ⟨b', hb', hres⟩ := ih
      (bput b (sessionJsonPath sk)
        (dumpsIndent2 (expectedSession sk c.uid cAt c.now (dictMerge M c.md))))
      c.uid cAt c.now (dictMerge M c.md) hnew.1 hnew.2
      (fun x hx => hwf x (by simp [hx])) (blobGet_bput_eq _ _ _)
    refine ⟨b', ?_, ?_⟩
    · simp only [applyUpserts, hstep]
      exact hb'
    · rw [hres]
      simp [lastUid, lastNow, mergeAll]

/-- C2: starting from no session record, a sequence of upserts followed by
a get returns a record whose `metadata` is the shallow left-to-right merge
of all upsert metadata arguments — so a key's value is the one of the last
upsert binding it, and untouched keys survive; `created_at` is the first
call's timestamp while `updated_at` and `user_id` are the last call's. -/
theorem c2_upsert_get_metadata_merge (b : Bucket) (sk : String) (c0 : UpsCall)
    (calls : List UpsCall)
    (hb0 : blobGet b (sessionJsonPath sk) = none)
    (hwf : ∀ c ∈ c0 :: calls, keysND c.md = true ∧ jwfM c.md = true) :
    ∃ b', applyUpserts sk b (c0 :: calls) = .ok b' ∧
      get_session GFate.ok b' sk
        = some (expectedSession sk (lastUid c0.uid calls) c0.now (lastNow c0.now calls)
            (mergeAll c0.md calls)) ∧
      ∀ k : String,
        dictGet (mergeAll c0.md calls) k = specMetaLookup k none (c0 :: calls) := by
  have h0 := upsert_create b sk c0.uid c0.now c0.md hb0
  have hM := hwf c0 (by simp)
  obtain ⟨b', hb', hres⟩ := applyUpserts_run sk calls
    (bput b (sessionJsonPath sk) (dumpsIndent2 (expectedSession sk c0.uid c0.now c0.now c0.md)))
    c0.uid c0.now c0.now c0.md hM.1 hM.2
    (fun x hx => (hwf x (by simp [hx])).2) (blobGet_bput_eq _ _ _)
  have hwfAll := mergeAll_wf calls c0.md hM.1 hM.2 (fun x hx => (hwf x (by simp [hx])).2)
  refine ⟨b', ?_, ?_, ?_⟩
  · simp only [applyUpserts, h0]
    exact hb'
  · unfold get_session
    simp [GFate.ok, hres, loads_dumpsIndent2 _
      (jwf_expectedSession sk (lastUid c0.uid calls) c0.now (lastNow c0.now calls)
        (mergeAll c0.md calls) hwfAll.1 hwfAll.2)]
  · intro k
    rw [mergeAll_lookup calls c0.md k (fun x hx => (hwf x (by simp [hx])).1)]
    simp only [specMetaLookup, List.foldl_cons]
    cases dictGet c0.md k <;> rfl

/-- First upsert call of the C2 witness. -/
def ups0W : UpsCall := ⟨"u1", [("a", .str "1")], "t1"⟩

/-- Later upsert calls of the C2 witness: key "a" is overridden, key "b"
is added. -/
def upsW : List UpsCall := [⟨"u2", [("a", .str "2"), ("b", .bool true)], "t2"⟩]

theorem c2_witness :
    blobGet ([] : Bucket) (sessionJsonPath "s") = none ∧
    ∃ b', applyUpserts "s" [] (ups0W :: upsW) = .ok b' ∧
      get_session GFate.ok b' "s"
        = some (expectedSession "s" (lastUid ups0W.uid upsW) ups0W.now
            (lastNow ups0W.now upsW) (mergeAll ups0W.md upsW)) ∧
      ∀ k : String,
        dictGet (mergeAll ups0W.md upsW) k = specMetaLookup k none (ups0W :: upsW) :=
  ⟨rfl, c2_upsert_get_metadata_merge [] "s" ups0W upsW rfl (by decide)⟩

theorem str_data_inj (a b : String) (h : a.data = b.data) : a = b := by
  cases a
  cases b
  exact congrArg String.mk h

theorem strApp_inj (pref a b : String) (h : pref ++ a = pref ++ b) : a = b := by
  have hd := congrArg String.data h
  simp only [String.data_append] at hd
  exact str_data_inj a b (list_append_cancel _ _ _ hd)

theorem isPrefixOf_self_append : ∀ (l m : List Char), l.isPrefixOf (l ++ m) = true := by
  intro l m
  induction l with
  | nil => cases m <;> rfl
  | cons c r ih => simp [List.isPrefixOf, ih]

theorem pref_isPrefixOf_append (pref p : String) :
    pref.data.isPrefixOf (pref ++ p).data = true := by
  rw [String.data_append]
  exact isPrefixOf_self_append _ _

theorem dropPref_append (pref p : String) : dropPref pref (pref ++ p) = p := by
  unfold dropPref
  rw [String.data_append, List.drop_left]

theorem bput_append_fresh : ∀ (b : Bucket) (k : String) (v : Blob),
    (∀ kv ∈ b, kv.1 ≠ k) → bput b k v = b ++ [(k, v)] := by
  intro b
  induction b with
  | nil => intro k v _; rfl
  | cons p rest ih =>
    intro k v h
    rw [show p = (p.1, p.2) from rfl]
    have hne : p.1 ≠ k := h p (by simp)
    simp [bput, hne, ih k v (fun kv hkv => h kv (by simp [hkv]))]

theorem fmPut_append_fresh : ∀ (w : FileMap) (k : String) (v : Chars),
    (∀ kv ∈ w, kv.1 ≠ k) → fmPut w k v = w ++ [(k, v)] := by
  intro w
  induction w with
  | nil => intro k v _; rfl
  | cons p rest ih =>
    intro k v h
    rw [show p = (p.1, p.2) from rfl]
    have hne : p.1 ≠ k := h p (by simp)
    simp [fmPut, hne, ih k v (fun kv hkv => h kv (by simp [hkv]))]

theorem syncUp_append (pref : String) : ∀ (ws : FileMap) (b : Bucket),
    (∀ kv ∈ b, ∀ pc ∈ ws, kv.1 ≠ pref ++ pc.1) →
    (ws.map Prod.fst).Nodup →
    sync_workspace_to_gcs.syncUpGo (fun _ => true) pref b ws
      = b ++ ws.map (fun pc => (pref ++ pc.1, pc.2)) := by
  intro ws
  induction ws with
  | nil => intro b _ _; simp [sync_workspace_to_gcs.syncUpGo]
  | cons pc0 rest ih =>
    intro b hfr hnd
    rw [show pc0 = (pc0.1, pc0.2) from rfl]
    simp only [sync_workspace_to_gcs.syncUpGo, if_true]
    have hb1 : bput b (pref ++ pc0.1) pc0.2 = b ++ [(pref ++ pc0.1, pc0.2)] :=
      bput_append_fresh b _ _ (fun kv hkv => hfr kv hkv pc0 (by simp))
    rw [hb1]
    simp only [List.map_cons, Bool.not_eq_true, List.nodup_cons] at hnd
    rw [ih (b ++ [(pref ++ pc0.1, pc0.2)]) ?_ hnd.2]
    · simp
    · intro kv hkv pc hpc
      rcases List.mem_append.mp hkv with hin | hnew
      · exact hfr kv hin pc (by simp [hpc])
      · simp only [List.mem_singleton] at hnew
        rw [hnew]
        intro he
        have hpp : pc0.1 = pc.1 := strApp_inj pref _ _ he
        exact hnd.1 (hpp ▸ List.mem_map.mpr ⟨pc, hpc, rfl⟩)

theorem list_files_append_fresh (b : Bucket) (pref : String)
    (entries : List (String × Chars))
    (hfr : ∀ kv ∈ b, pref.data.isPrefixOf kv.1.data = false)
    (hpre : ∀ kv ∈ entries, pref.data.isPrefixOf kv.1.data = true) :
    list_files (b ++ entries) pref = entries.map Prod.fst := by
  unfold list_files
  rw [List.filter_append]
  have h1 : b.filter (fun kv => pref.data.isPrefixOf kv.1.data) = [] := by
    rw [List.filter_eq_nil_iff]
    intro kv hkv
    simp [hfr kv hkv]
  have h2 : entries.filter (fun kv => pref.data.isPrefixOf kv.1.data) = entries := by
    rw [List.filter_eq_self]
    intro kv hkv
    simp [hpre kv hkv]
  rw [h1, h2]
  simp [Prod.fst]

theorem blobGet_append_left_none : ∀ (b e : Bucket) (k : String),
    (∀ kv ∈ b, kv.1 ≠ k) → blobGet (b ++ e) k = blobGet e k := by
  intro b
  induction b with
  | nil => intro e k _; rfl
  | cons p rest ih =>
    intro e k h
    rw [show p = (p.1, p.2) from rfl]
    have hne : p.1 ≠ k := h p (by simp)
    simp [blobGet, hne, ih e k (fun kv hkv => h kv (by simp [hkv]))]

theorem blobGet_pushed_entries (pref : String) : ∀ (ws : FileMap),
    (ws.map Prod.fst).Nodup →
    ∀ pc ∈ ws, blobGet (ws.map (fun q => (pref ++ q.1, q.2))) (pref ++ pc.1)
      = some pc.2 := by
  intro ws
  induction ws with
  | nil => intro _ pc hpc; simp at hpc
  | cons q0 rest ih =>
    intro hnd pc hpc
    simp only [List.map_cons, Bool.not_eq_true, List.nodup_cons] at hnd
    rcases List.mem_cons.mp hpc with hh | ht
    · rw [hh]
      simp [blobGet]
    · have hne : pref ++ q0.1 ≠ pref ++ pc.1 := by
        intro he
        have := strApp_inj pref _ _ he
        exact hnd.1 (this ▸ List.mem_map.mpr ⟨pc, ht, rfl⟩)
      simp only [List.map_cons, blobGet, hne, if_false]
      exact ih hnd.2 pc ht

theorem pull_appended (pref : String) (b' : Bucket) : ∀ (ws acc : FileMap),
    (∀ pc ∈ ws, blobGet b' (pref ++ pc.1) = some pc.2) →
    (∀ kv ∈ acc, ∀ pc ∈ ws, kv.1 ≠ pc.1) →
    (ws.map Prod.fst).Nodup →
    (ws.map (fun pc => pref ++ pc.1)).foldl
      (fun w rp => download_file true b' rp w (dropPref pref rp)) acc = acc ++ ws := by
  intro ws
  induction ws with
  | nil => intro acc _ _ _; simp
  | cons pc0 rest ih =>
    intro acc hb hacc hnd
    simp only [List.map_cons, Bool.not_eq_true, List.nodup_cons] at hnd
    simp only [List.map_cons, List.foldl_cons]
    have hdl : download_file true b' (pref ++ pc0.1) acc (dropPref pref (pref ++ pc0.1))
        = acc ++ [(pc0.1, pc0.2)] := by
      unfold download_file
      rw [if_pos rfl, hb pc0 (by simp), dropPref_append]
      exact fmPut_append_fresh acc _ _ (fun kv hkv => hacc kv hkv pc0 (by simp))
    rw [hdl]
    rw [ih (acc ++ [(pc0.1, pc0.2)]) (fun pc hpc => hb pc (by simp [hpc])) ?_ hnd.2]
    · rw [show pc0 = (pc0.1, pc0.2) from rfl]
      simp
    · intro kv hkv pc hpc
      rcases List.mem_append.mp hkv with hin | hnew
      · exact hacc kv hin pc (by simp [hpc])
      · simp only [List.mem_singleton] at hnew
        rw [hnew]
        intro he
        exact hnd.1 (he ▸ List.mem_map.mpr ⟨pc, hpc, rfl⟩)

/-- C8: pushing a local directory of files to the session's file area of a
bucket that holds no blobs under that prefix, then pulling into a fresh
empty directory, reproduces exactly the original files: identical relative
paths and identical contents. -/
theorem c8_workspace_push_pull_roundtrip (b : Bucket) (ws : FileMap) (sk : String)
    (hfr : ∀ kv ∈ b, (filesPref sk).data.isPrefixOf kv.1.data = false)
    (hnd : (ws.map Prod.fst).Nodup) :
    sync_gcs_to_workspace true (fun _ => true)
      (sync_workspace_to_gcs (fun _ => true) b ws sk) [] sk = ws := by
  have hfr2 : ∀ kv ∈ b, ∀ pc ∈ ws, kv.1 ≠ filesPref sk ++ pc.1 := by
    intro kv hkv pc _ he
    have hx := hfr kv hkv
    rw [he, pref_isPrefixOf_append] at hx
    exact absurd hx (by simp)
  have hpush : sync_workspace_to_gcs (fun _ => true) b ws sk
      = b ++ ws.map (fun pc => (filesPref sk ++ pc.1, pc.2)) := by
    unfold sync_workspace_to_gcs
    exact syncUp_append (filesPref sk) ws b hfr2 hnd
  rw [hpush]
  unfold sync_gcs_to_workspace
  have hlist : list_files (b ++ ws.map (fun pc => (filesPref sk ++ pc.1, pc.2)))
      (filesPref sk) = (ws.map (fun pc => (filesPref sk ++ pc.1, pc.2))).map Prod.fst := by
    refine list_files_append_fresh b _ _ hfr ?_
    intro kv hkv
    obtain ⟨pc, hpc, rfl⟩ := List.mem_map.mp hkv
    exact pref_isPrefixOf_append _ _
  simp only [if_pos rfl, hlist, List.map_map]
  have hget : ∀ pc ∈ ws, blobGet (b ++ ws.map (fun q => (filesPref sk ++ q.1, q.2)))
      (filesPref sk ++ pc.1) = some pc.2 := by
    intro pc hpc
    rw [blobGet_append_left_none b _ _ (fun kv hkv => hfr2 kv hkv pc hpc)]
    exact blobGet_pushed_entries (filesPref sk) ws hnd pc hpc
  exact pull_appended (filesPref sk) _ ws [] hget (by intro kv hkv; simp at hkv) hnd

/-- Local directory of the C8 witness. -/
def wsW : FileMap := [("a.txt", ['h', 'i']), ("d/b.txt", ['y'])]

theorem c8_witness :
    (∀ kv ∈ ([] : Bucket), (filesPref "s").data.isPrefixOf kv.1.data = false) ∧
    (wsW.map Prod.fst).Nodup ∧
    sync_gcs_to_workspace true (fun _ => true)
      (sync_workspace_to_gcs (fun _ => true) [] wsW "s") [] "s" = wsW :=
  ⟨by simp, by decide,
   c8_workspace_push_pull_roundtrip [] wsW "s" (by simp) (by decide)⟩
